import Mathlib

/-!
# SecureBox / openBox (src/main.cpp)

A shallow embedding of `class SecureBox` (the grid with its `toggle`,
`isLocked`, `getState`) and of `openBox` (builder of the augmented GF(2)
matrix, Gauss elimination, press-vector extraction, application loop).

Modelling conventions:
* `std::vector<std::vector<bool>>` is `List (List Bool)`; every `for` loop over
  `0 .. n-1` is a left fold over `List.range n`, so the order of the source
  is kept.
* `std::bitset<MAX_N + 1>` is a natural number read through `Nat.testBit`;
  `operator^=` is `Nat.xor`, and an assignment `b[k] = v` is `Bitset.assign`.
* `uint32_t` / `int` values are natural numbers: inside the supported range
  (`ySize * xSize ≤ MAX_N = 10000`) no product or index of the source exceeds
  `10000`, so no wrap-around occurs.
* An access outside a vector (undefined in the source) reads a default value and
  writes nothing; the statements about the source carry the in-range conditions.
* `openBoxChecked` repeats `openBox` with every access guarded (`Option`), to state
  that no access leaves its range.
* The pseudo-random `shuffle` of the constructor is not modelled as such; the
  grid it leaves behind is the input `st` of `openBox`, and `Reachable`
  describes the grids a sequence of `toggle` calls can produce.
-/

namespace SecureBoxModel

/-! ## The grid -/

/-- The type of `SecureBox::box`. -/
abbrev Grid := List (List Bool)

/-- Read access `box[y][x]`. -/
def cell (g : Grid) (y x : Nat) : Bool := (g.getD y []).getD x false

/-- Write access `box[y][x] = v`. -/
def setCell (g : Grid) (y x : Nat) (v : Bool) : Grid :=
  g.set y ((g.getD y []).set x v)

/-- The statement `box[y][x] = !box[y][x];`. -/
def flipCell (g : Grid) (y x : Nat) : Grid := setCell g y x (!cell g y x)

/-- The data members of `class SecureBox` (the generator apart). -/
structure SecureBox where
  box : Grid
  ySize : Nat
  xSize : Nat
deriving DecidableEq, Repr

/-- The grid the constructor builds before `shuffle()`: `y` rows of `x` cells, all `false`. -/
def SecureBox.blank (y x : Nat) : SecureBox :=
  { box := List.replicate y (List.replicate x false), ySize := y, xSize := x }

/-- `SecureBox::toggle(y, x)`: the cell itself, then the whole row `y`, then the whole column `x`. -/
def SecureBox.toggle (b : SecureBox) (y x : Nat) : SecureBox :=
  let g0 := flipCell b.box y x
  let g1 := (List.range b.xSize).foldl (fun g i => flipCell g y i) g0
  let g2 := (List.range b.ySize).foldl (fun g i => flipCell g i x) g1
  { b with box := g2 }

/-- `SecureBox::isLocked()`: `true` as soon as some `box[y][x]` is `true` (x outer, y inner). -/
def SecureBox.isLocked (b : SecureBox) : Bool :=
  (List.range b.xSize).any fun x => (List.range b.ySize).any fun y => cell b.box y x

/-- `SecureBox::getState()`: a copy of the grid. -/
def SecureBox.getState (b : SecureBox) : Grid := b.box

/-- A sequence of `toggle` calls, in list order (what `shuffle()` performs). -/
def SecureBox.toggles (b : SecureBox) (ps : List (Nat × Nat)) : SecureBox :=
  ps.foldl (fun s p => s.toggle p.1 p.2) b

/-- The grids `shuffle()` can leave behind: obtained from the all-false grid by
finitely many in-range `toggle` calls. -/
def Reachable (ySize xSize : Nat) (st : Grid) : Prop :=
  ∃ ps : List (Nat × Nat), (∀ p ∈ ps, p.1 < ySize ∧ p.2 < xSize) ∧
    st = ((SecureBox.blank ySize xSize).toggles ps).box

/-- A grid has the shape the constructor gives it: `ySize` rows of `xSize` cells. -/
def WellFormed (ySize xSize : Nat) (g : Grid) : Prop :=
  g.length = ySize ∧ ∀ i, i < ySize → (g.getD i []).length = xSize

/-! ## Bit sets and the augmented matrix -/

/-- The constant `MAX_N` of `openBox`. -/
def MAX_N : Nat := 10000

/-- A value of `std::bitset<MAX_N + 1>`, bit `k` being `Nat.testBit · k`. -/
abbrev Bitset := Nat

/-- Read access `b[k]`. -/
def Bitset.test (b : Bitset) (k : Nat) : Bool := Nat.testBit b k

/-- Write access `b[k] = v`. -/
def Bitset.assign (b : Bitset) (k : Nat) (v : Bool) : Bitset :=
  if Nat.testBit b k = v then b else Nat.xor b (1 <<< k)

/-- The type of `matrix`: one bit set per equation. -/
abbrev Matrix := List Bitset

/-- Read access `matrix[i]`. -/
def rowAt (m : Matrix) (i : Nat) : Bitset := m.getD i 0

/-- The statement `matrix[i][k] = v;`. -/
def setBit (m : Matrix) (i k : Nat) (v : Bool) : Matrix :=
  m.set i (Bitset.assign (rowAt m i) k v)

/-- The statement `matrix[i][k] = !matrix[i][k];`. -/
def flipBit (m : Matrix) (i k : Nat) : Matrix :=
  setBit m i k (!Bitset.test (rowAt m i) k)

/-- The body of the builder's inner loop (lines 126-143) for the cell `(row, col)`. -/
def buildCell (ySize xSize : Nat) (state : Grid) (row col : Nat) (m : Matrix) : Matrix :=
  let idx := row * xSize + col
  let m1 := setBit m idx idx true
  let m2 := (List.range xSize).foldl (fun a i => flipBit a idx (row * xSize + i)) m1
  let m3 := (List.range ySize).foldl (fun a i => flipBit a idx (i * xSize + col)) m2
  setBit m3 idx MAX_N (cell state row col)

/-- The bit set the builder's inner-loop body (lines 132-143) leaves in `matrix[idx]`
when it finds `b` there: the same statements, on the one row they write. -/
def buildRow (ySize xSize : Nat) (state : Grid) (row col : Nat) (b : Bitset) : Bitset :=
  let idx := row * xSize + col
  let b1 := Bitset.assign b idx true
  let b2 := (List.range xSize).foldl
    (fun a i => Bitset.assign a (row * xSize + i) (!Bitset.test a (row * xSize + i))) b1
  let b3 := (List.range ySize).foldl
    (fun a i => Bitset.assign a (i * xSize + col) (!Bitset.test a (i * xSize + col))) b2
  Bitset.assign b3 MAX_N (cell state row col)

/-- The builder (lines 118-145): `N` zero rows, then `buildCell` for every cell, row-major. -/
def buildMatrix (ySize xSize : Nat) (state : Grid) : Matrix :=
  (List.range ySize).foldl
    (fun m row => (List.range xSize).foldl (fun a col => buildCell ySize xSize state row col a) m)
    (List.replicate (ySize * xSize) 0)

/-- The search loop (lines 152-160): the first `i` in `row .. N-1` with `matrix[i][col]`
set; `none` stands for `sel == -1`. -/
def findSel (m : Matrix) (N row col : Nat) : Option Nat :=
  (List.range' row (N - row)).find? fun i => Bitset.test (rowAt m i) col

/-- The statement `std::swap(matrix[row], matrix[sel]);`. -/
def swapRows (m : Matrix) (row sel : Nat) : Matrix :=
  (m.set row (rowAt m sel)).set sel (rowAt m row)

/-- The clearing loop (lines 166-170): every row other than `row` with a 1 in `col`
gets the pivot row XOR-ed into it. -/
def eliminate (m : Matrix) (N row col : Nat) : Matrix :=
  (List.range N).foldl
    (fun a i =>
      if i ≠ row ∧ Bitset.test (rowAt a i) col = true
      then a.set i (Nat.xor (rowAt a i) (rowAt a row)) else a)
    m

/-- One iteration of the column loop (lines 151-171) on the pair `(matrix, row)`. -/
def gaussStep (N : Nat) (s : Matrix × Nat) (col : Nat) : Matrix × Nat :=
  match findSel s.1 N s.2 col with
  | none => s
  | some sel => (eliminate (swapRows s.1 s.2 sel) N s.2 col, s.2 + 1)

/-- The Gauss elimination loop (lines 148-172), from `row = 0`. -/
def gauss (N : Nat) (m : Matrix) : Matrix × Nat :=
  (List.range N).foldl (gaussStep N) (m, 0)

/-- The extraction loop (lines 174-176): `press[i] = matrix[i][MAX_N]`. -/
def extractPress (N : Nat) (m : Matrix) : List Bool :=
  (List.range N).map fun i => Bitset.test (rowAt m i) MAX_N

/-- Read access `press[i]`. -/
def pressAt (press : List Bool) (i : Nat) : Bool := press.getD i false

/-- The application loop (lines 179-187): row-major, `toggle(r, c)` where `press[r * xSize + c]`. -/
def applyPress (ySize xSize : Nat) (press : List Bool) (b : SecureBox) : SecureBox :=
  (List.range ySize).foldl
    (fun s r => (List.range xSize).foldl
      (fun t c => if pressAt press (r * xSize + c) = true then t.toggle r c else t) s)
    b

/-- The press vector `openBox` computes for the grid `st` (lines 116-176). -/
def computePress (ySize xSize : Nat) (st : Grid) : List Bool :=
  let box : SecureBox := { box := st, ySize := ySize, xSize := xSize }
  let state := box.getState
  let N := ySize * xSize
  extractPress N (gauss N (buildMatrix ySize xSize state)).1

/-- The box at line 189 of `openBox`, after the application loop, when the
constructor has left the grid `st`. -/
def openBoxFinal (ySize xSize : Nat) (st : Grid) : SecureBox :=
  applyPress ySize xSize (computePress ySize xSize st) { box := st, ySize := ySize, xSize := xSize }

/-- The function `openBox(ySize, xSize)`, as a function of the grid `st` the
constructor of `SecureBox` has produced: `return box.isLocked();`. -/
def openBox (ySize xSize : Nat) (st : Grid) : Bool :=
  (openBoxFinal ySize xSize st).isLocked

/-! ## The linear system over GF(2) -/

/-- The sum over GF(2) of `f 0, …, f (n-1)`. -/
def xorSum (n : Nat) (f : Nat → Bool) : Bool :=
  (List.range n).foldl (fun acc j => xor acc (f j)) false

/-- The coefficient `A[i][j]` of the matrix the builder produces. -/
def coef (ySize xSize : Nat) (state : Grid) (i j : Nat) : Bool :=
  Bitset.test (rowAt (buildMatrix ySize xSize state) i) j

/-- Entry `i` of the product `A * p` over GF(2), `A` being the builder's coefficient matrix. -/
def mulVec (ySize xSize : Nat) (state : Grid) (p : List Bool) (i : Nat) : Bool :=
  xorSum (ySize * xSize) fun j => coef ySize xSize state i j && pressAt p j

/-! ## Outcome of a call -/

/-- The error conditions a solver entry point may signal. -/
inductive SolverError where
  | InvalidDimensions
deriving DecidableEq, Repr

/-- The outcome of a call of `openBox`. The function has return type `bool`, contains no
`throw` and no check of `ySize` or `xSize`: whenever it returns, it returns the lock
status of line 189, which is the only outcome it has. -/
def openBoxOutcome (ySize xSize : Nat) (st : Grid) : Except SolverError Bool :=
  Except.ok (openBox ySize xSize st)

/-! ## Augmented systems -/

/-- The first `col` iterations of the column loop (lines 149-172), from `row = 0`;
`gauss N m` is `gaussRun N m N`. -/
def gaussRun (N : Nat) (m : Matrix) (col : Nat) : Matrix × Nat :=
  (List.range col).foldl (gaussStep N) (m, 0)

/-- The residual of the equation held in the row `r` at the vector `x`: the sum over
`j < N` of `r[j] · x[j]`, plus the right-hand side `r[MAX_N]`, over GF(2). -/
def residual (N : Nat) (r : Bitset) (x : Nat → Bool) : Bool :=
  xor (xorSum N fun j => Bitset.test r j && x j) (Bitset.test r MAX_N)

/-- The vector `x` satisfies the augmented system held in the first `N` rows of `m`. -/
def Solves (N : Nat) (m : Matrix) (x : Nat → Bool) : Prop :=
  ∀ i, i < N → residual N (rowAt m i) x = false

/-- The leftmost coefficient column `j < N` in which the row `r` has a 1, if any. -/
def leadCol (N : Nat) (r : Bitset) : Option Nat :=
  (List.range N).find? fun j => Bitset.test r j

/-- The shape of the pair `(matrix, row)` once the column loop has handled the columns
below `col`: rows `r < row` are pivot rows, `c r` being the column of the pivot of row `r`. -/
def Echelon (N col : Nat) (s : Matrix × Nat) (c : Nat → Nat) : Prop :=
  s.1.length = N ∧ s.2 ≤ col ∧ s.2 ≤ N ∧
  (∀ r, r < s.2 → c r < col ∧ Bitset.test (rowAt s.1 r) (c r) = true ∧
    ∀ j, j < c r → Bitset.test (rowAt s.1 r) j = false) ∧
  (∀ r r', r < r' → r' < s.2 → c r < c r') ∧
  (∀ r, r < s.2 → ∀ i, i < N → i ≠ r → Bitset.test (rowAt s.1 i) (c r) = false) ∧
  (∀ i, s.2 ≤ i → i < N → ∀ j, j < col → Bitset.test (rowAt s.1 i) j = false)

instance (N : Nat) (m : Matrix) (x : Nat → Bool) : Decidable (Solves N m x) := by
  unfold Solves
  infer_instance

/-! ## The same code with every access checked

In the source an access outside a `std::vector` or a `std::bitset` is undefined. The
definitions below repeat `toggle`, `isLocked` and `openBox` statement by statement with
each access guarded: the result is `none` as soon as one access is out of range. -/

/-- Checked read `box[y][x]`: both vectors must have the position. -/
def cellChecked (g : Grid) (y x : Nat) : Option Bool :=
  (g[y]?).bind fun row => row[x]?

/-- Checked `box[y][x] = !box[y][x];`. -/
def flipCellChecked (g : Grid) (y x : Nat) : Option Grid :=
  (cellChecked g y x).map fun v => setCell g y x (!v)

/-- Checked `SecureBox::toggle(y, x)`. -/
def SecureBox.toggleChecked (b : SecureBox) (y x : Nat) : Option SecureBox := do
  let g0 ← flipCellChecked b.box y x
  let g1 ← (List.range b.xSize).foldlM (fun g i => flipCellChecked g y i) g0
  let g2 ← (List.range b.ySize).foldlM (fun g i => flipCellChecked g i x) g1
  pure { b with box := g2 }

/-- Checked `SecureBox::isLocked()`, leaving the loops at the first `true` cell. -/
def SecureBox.isLockedChecked (b : SecureBox) : Option Bool :=
  (List.range b.xSize).anyM fun x => (List.range b.ySize).anyM fun y => cellChecked b.box y x

/-- Checked read of a coefficient bit `matrix[i][k]`: the row `i` must exist and `k` must
be a coefficient column, `k < N`, below the right-hand-side position `MAX_N`. -/
def readCoef (N : Nat) (m : Matrix) (i k : Nat) : Option Bool :=
  if i < m.length ∧ k < N ∧ k < MAX_N then some (Bitset.test (rowAt m i) k) else none

/-- Checked write of a coefficient bit `matrix[i][k] = v`, under the same conditions. -/
def writeCoef (N : Nat) (m : Matrix) (i k : Nat) (v : Bool) : Option Matrix :=
  if i < m.length ∧ k < N ∧ k < MAX_N then some (setBit m i k v) else none

/-- Checked `matrix[i][k] = !matrix[i][k];` on a coefficient bit. -/
def flipCoef (N : Nat) (m : Matrix) (i k : Nat) : Option Matrix := do
  let v ← readCoef N m i k
  writeCoef N m i k (!v)

/-- Checked read of the right-hand side `matrix[i][MAX_N]`: the row must exist and the
position `MAX_N` must lie inside the `MAX_N + 1` bits. -/
def readRhs (m : Matrix) (i : Nat) : Option Bool :=
  if i < m.length ∧ MAX_N < MAX_N + 1 then some (Bitset.test (rowAt m i) MAX_N) else none

/-- Checked write of the right-hand side `matrix[i][MAX_N] = v`. -/
def writeRhs (m : Matrix) (i : Nat) (v : Bool) : Option Matrix :=
  if i < m.length ∧ MAX_N < MAX_N + 1 then some (setBit m i MAX_N v) else none

/-- Checked body of the builder's inner loop (lines 126-143). -/
def buildCellChecked (ySize xSize : Nat) (state : Grid) (row col : Nat) (m : Matrix) :
    Option Matrix := do
  let N := ySize * xSize
  let idx := row * xSize + col
  let m1 ← writeCoef N m idx idx true
  let m2 ← (List.range xSize).foldlM (fun a i => flipCoef N a idx (row * xSize + i)) m1
  let m3 ← (List.range ySize).foldlM (fun a i => flipCoef N a idx (i * xSize + col)) m2
  let v ← cellChecked state row col
  writeRhs m3 idx v

/-- Checked builder (lines 118-145). -/
def buildMatrixChecked (ySize xSize : Nat) (state : Grid) : Option Matrix :=
  (List.range ySize).foldlM
    (fun m row =>
      (List.range xSize).foldlM (fun a col => buildCellChecked ySize xSize state row col a) m)
    (List.replicate (ySize * xSize) 0)

/-- Checked search loop (lines 152-160) over the candidate rows, with its `break`. -/
def findSelLoop (N : Nat) (m : Matrix) (col : Nat) : List Nat → Option (Option Nat)
  | [] => some none
  | i :: rest => do
    let v ← readCoef N m i col
    if v = true then pure (some i) else findSelLoop N m col rest

/-- Checked search for the pivot row. -/
def findSelChecked (m : Matrix) (N row col : Nat) : Option (Option Nat) :=
  findSelLoop N m col (List.range' row (N - row))

/-- Checked `std::swap(matrix[row], matrix[sel]);`. -/
def swapRowsChecked (m : Matrix) (row sel : Nat) : Option Matrix :=
  if row < m.length ∧ sel < m.length then some (swapRows m row sel) else none

/-- Checked `matrix[i] ^= matrix[row];`. -/
def xorRowChecked (m : Matrix) (i row : Nat) : Option Matrix :=
  if i < m.length ∧ row < m.length then some (m.set i (Nat.xor (rowAt m i) (rowAt m row)))
  else none

/-- Checked clearing loop (lines 166-170); `matrix[i][col]` is read only when `i != row`. -/
def eliminateChecked (m : Matrix) (N row col : Nat) : Option Matrix :=
  (List.range N).foldlM
    (fun a i =>
      if i ≠ row then do
        let v ← readCoef N a i col
        if v = true then xorRowChecked a i row else pure a
      else pure a)
    m

/-- Checked iteration of the column loop (lines 151-171). -/
def gaussStepChecked (N : Nat) (s : Matrix × Nat) (col : Nat) : Option (Matrix × Nat) := do
  let found ← findSelChecked s.1 N s.2 col
  match found with
  | none => pure s
  | some sel => do
    let m1 ← swapRowsChecked s.1 s.2 sel
    let m2 ← eliminateChecked m1 N s.2 col
    pure (m2, s.2 + 1)

/-- Checked Gauss elimination loop (lines 148-172). -/
def gaussChecked (N : Nat) (m : Matrix) : Option (Matrix × Nat) :=
  (List.range N).foldlM (gaussStepChecked N) (m, 0)

/-- Checked write `press[i] = v`. -/
def writePress (press : List Bool) (i : Nat) (v : Bool) : Option (List Bool) :=
  if i < press.length then some (press.set i v) else none

/-- Checked read `press[i]`. -/
def readPress (press : List Bool) (i : Nat) : Option Bool := press[i]?

/-- Checked extraction (lines 174-176): `press` starts as `N` times `false`. -/
def extractPressChecked (N : Nat) (m : Matrix) : Option (List Bool) :=
  (List.range N).foldlM
    (fun press i => do
      let v ← readRhs m i
      writePress press i v)
    (List.replicate N false)

/-- Checked application loop (lines 179-187). -/
def applyPressChecked (ySize xSize : Nat) (press : List Bool) (b : SecureBox) :
    Option SecureBox :=
  (List.range ySize).foldlM
    (fun s r => (List.range xSize).foldlM
      (fun t c => do
        let p ← readPress press (r * xSize + c)
        if p = true then t.toggleChecked r c else pure t) s)
    b

/-- Checked `openBox`, on the grid `st` the constructor has produced. -/
def openBoxChecked (ySize xSize : Nat) (st : Grid) : Option Bool := do
  let box : SecureBox := { box := st, ySize := ySize, xSize := xSize }
  let state := box.getState
  let N := ySize * xSize
  let matrix ← buildMatrixChecked ySize xSize state
  let reduced ← gaussChecked N matrix
  let press ← extractPressChecked N reduced.1
  let final ← applyPressChecked ySize xSize press box
  final.isLockedChecked

/-! # Properties -/

/-! ## Lists as vectors -/

theorem getD_set_eq_ite {α : Type} (l : List α) (i j : Nat) (a d : α) :
    (l.set i a).getD j d = if i = j ∧ i < l.length then a else l.getD j d := by
  simp only [List.getD_eq_getElem?_getD, List.getElem?_set]
  by_cases hij : i = j
  · by_cases hi : i < l.length
    · subst hij
      simp [hi]
    · subst hij
      have : l[i]? = none := List.getElem?_eq_none (by omega)
      simp [hi, this]
  · simp [hij]

theorem foldl_range_succ {β : Type} (f : β → Nat → β) (b : β) (n : Nat) :
    (List.range (n + 1)).foldl f b = f ((List.range n).foldl f b) n := by
  rw [List.range_succ, List.foldl_append]
  rfl

/-! ## Cells of the grid -/

theorem wellFormed_flipCell {Y X : Nat} {g : Grid} (h : WellFormed Y X g) (y x : Nat) :
    WellFormed Y X (flipCell g y x) := by
  obtain ⟨hl, hr⟩ := h
  refine ⟨by simp [flipCell, setCell, hl], ?_⟩
  intro i hi
  unfold flipCell setCell
  rw [getD_set_eq_ite]
  split
  · next hc =>
    rw [List.length_set]
    rw [hc.1]
    exact hr i hi
  · exact hr i hi

theorem cell_flipCell {Y X : Nat} {g : Grid} (h : WellFormed Y X g) {y x : Nat}
    (hy : y < Y) (hx : x < X) (i j : Nat) :
    cell (flipCell g y x) i j = if i = y ∧ j = x then !cell g i j else cell g i j := by
  obtain ⟨hl, hr⟩ := h
  unfold flipCell setCell cell
  rw [getD_set_eq_ite]
  by_cases hiy : y = i
  · subst hiy
    have hlen : y < g.length := by omega
    simp only [hlen, and_self, if_true, true_and]
    rw [getD_set_eq_ite]
    have hrow : x < (g.getD y []).length := by rw [hr y hy]; exact hx
    by_cases hjx : x = j
    · subst hjx
      rw [if_pos ⟨rfl, hrow⟩]
      simp
    · have : ¬ j = x := fun e => hjx e.symm
      simp [hjx, this]
  · have : ¬ i = y := fun e => hiy e.symm
    simp [hiy, this]

theorem grid_ext {Y X : Nat} {g g' : Grid} (h : WellFormed Y X g) (h' : WellFormed Y X g')
    (hc : ∀ i j, i < Y → j < X → cell g i j = cell g' i j) : g = g' := by
  obtain ⟨hl, hr⟩ := h
  obtain ⟨hl', hr'⟩ := h'
  apply List.ext_getElem (by omega)
  intro i h1 h2
  have e1 : g.getD i [] = g[i] := List.getD_eq_getElem g [] h1
  have e2 : g'.getD i [] = g'[i] := List.getD_eq_getElem g' [] h2
  have l1 : (g[i]).length = X := by rw [← e1]; exact hr i (by omega)
  have l2 : (g'[i]).length = X := by rw [← e2]; exact hr' i (by omega)
  apply List.ext_getElem (by omega)
  intro j k1 k2
  have := hc i j (by omega) (by omega)
  unfold cell at this
  rw [e1, e2, List.getD_eq_getElem _ false k1, List.getD_eq_getElem _ false k2] at this
  exact this

/-! ## The effect of `toggle` -/

theorem rowLoop_spec {Y X : Nat} {g : Grid} (h : WellFormed Y X g) {y : Nat} (hy : y < Y)
    (n : Nat) (hn : n ≤ X) :
    WellFormed Y X ((List.range n).foldl (fun a i => flipCell a y i) g) ∧
    ∀ i j, cell ((List.range n).foldl (fun a i => flipCell a y i) g) i j
      = xor (cell g i j) (decide (i = y ∧ j < n)) := by
  induction n with
  | zero => exact ⟨h, by intro i j; simp⟩
  | succ n ih =>
    obtain ⟨hw, hc⟩ := ih (by omega)
    rw [foldl_range_succ]
    refine ⟨wellFormed_flipCell hw y n, ?_⟩
    intro i j
    rw [cell_flipCell hw hy (by omega : n < X), hc]
    by_cases hi : i = y <;> by_cases hj : j = n
    · subst hj; simp [hi]
    · have : (j < n + 1) = (j < n) := by apply propext; omega
      simp [hi, hj, this]
    · simp [hi]
    · simp [hi]

theorem colLoop_spec {Y X : Nat} {g : Grid} (h : WellFormed Y X g) {x : Nat} (hx : x < X)
    (n : Nat) (hn : n ≤ Y) :
    WellFormed Y X ((List.range n).foldl (fun a i => flipCell a i x) g) ∧
    ∀ i j, cell ((List.range n).foldl (fun a i => flipCell a i x) g) i j
      = xor (cell g i j) (decide (j = x ∧ i < n)) := by
  induction n with
  | zero => exact ⟨h, by intro i j; simp⟩
  | succ n ih =>
    obtain ⟨hw, hc⟩ := ih (by omega)
    rw [foldl_range_succ]
    refine ⟨wellFormed_flipCell hw n x, ?_⟩
    intro i j
    rw [cell_flipCell hw (by omega : n < Y) hx, hc]
    by_cases hj : j = x <;> by_cases hi : i = n
    · subst hi; simp [hj]
    · have : (i < n + 1) = (i < n) := by apply propext; omega
      simp [hi, hj, this]
    · simp [hj]
    · simp [hj]

/-- The invariant `toggle` keeps and the cell-wise effect it has on a well-formed box. -/
theorem toggle_spec (b : SecureBox) (hw : WellFormed b.ySize b.xSize b.box) {y x : Nat}
    (hy : y < b.ySize) (hx : x < b.xSize) :
    (b.toggle y x).ySize = b.ySize ∧ (b.toggle y x).xSize = b.xSize ∧
    WellFormed b.ySize b.xSize (b.toggle y x).box ∧
    ∀ i j, i < b.ySize → j < b.xSize →
      cell (b.toggle y x).box i j = xor (cell b.box i j) (decide (i = y ∨ j = x)) := by
  have h0 := wellFormed_flipCell hw y x
  obtain ⟨h1, c1⟩ := rowLoop_spec h0 hy b.xSize (Nat.le_refl b.xSize)
  obtain ⟨h2, c2⟩ := colLoop_spec h1 hx b.ySize (Nat.le_refl b.ySize)
  refine ⟨rfl, rfl, h2, ?_⟩
  intro i j hi hj
  show cell ((List.range b.ySize).foldl (fun a i => flipCell a i x)
    ((List.range b.xSize).foldl (fun a i => flipCell a y i) (flipCell b.box y x))) i j = _
  rw [c2, c1, cell_flipCell hw hy hx]
  by_cases e1 : i = y <;> by_cases e2 : j = x
  · subst e1; subst e2; simp [hi, hj]
  · simp [e1, e2, hj]
  · simp [e1, e2, hi]
  · simp [e1, e2]

theorem secureBox_eq {s t : SecureBox} (h1 : s.box = t.box) (h2 : s.ySize = t.ySize)
    (h3 : s.xSize = t.xSize) : s = t := by
  cases s; cases t
  simp only at h1 h2 h3
  subst h1; subst h2; subst h3; rfl

theorem toggle_toggle_self (b : SecureBox) (hw : WellFormed b.ySize b.xSize b.box) {y x : Nat}
    (hy : y < b.ySize) (hx : x < b.xSize) : (b.toggle y x).toggle y x = b := by
  obtain ⟨_, _, w1, c1⟩ := toggle_spec b hw hy hx
  obtain ⟨_, _, w2, c2⟩ := toggle_spec (b.toggle y x) w1 hy hx
  have hbox : ((b.toggle y x).toggle y x).box = b.box := by
    apply grid_ext w2 hw
    intro i j hi hj
    rw [c2 i j hi hj, c1 i j hi hj]
    simp
  exact secureBox_eq hbox rfl rfl

theorem toggle_comm (b : SecureBox) (hw : WellFormed b.ySize b.xSize b.box) {y x y' x' : Nat}
    (hy : y < b.ySize) (hx : x < b.xSize) (hy' : y' < b.ySize) (hx' : x' < b.xSize) :
    (b.toggle y x).toggle y' x' = (b.toggle y' x').toggle y x := by
  obtain ⟨_, _, w1, c1⟩ := toggle_spec b hw hy hx
  obtain ⟨_, _, w2, c2⟩ := toggle_spec (b.toggle y x) w1 hy' hx'
  obtain ⟨_, _, w3, c3⟩ := toggle_spec b hw hy' hx'
  obtain ⟨_, _, w4, c4⟩ := toggle_spec (b.toggle y' x') w3 hy hx
  have hbox : ((b.toggle y x).toggle y' x').box = ((b.toggle y' x').toggle y x).box := by
    apply grid_ext w2 w4
    intro i j hi hj
    rw [c2 i j hi hj, c1 i j hi hj, c4 i j hi hj, c3 i j hi hj]
    simp only [Bool.xor_assoc]
    congr 1
    exact Bool.xor_comm _ _
  exact secureBox_eq hbox rfl rfl

theorem toggles_perm {ps qs : List (Nat × Nat)} (hp : ps.Perm qs) :
    ∀ b : SecureBox, WellFormed b.ySize b.xSize b.box →
      (∀ p ∈ ps, p.1 < b.ySize ∧ p.2 < b.xSize) → b.toggles ps = b.toggles qs := by
  induction hp with
  | nil => intro b _ _; rfl
  | cons a _ ih =>
    intro b hw hr
    have ha := hr a (List.mem_cons_self _ _)
    obtain ⟨_, _, w1, _⟩ := toggle_spec b hw ha.1 ha.2
    exact ih (b.toggle a.1 a.2) w1 (fun p hp => hr p (List.mem_cons_of_mem _ hp))
  | swap a a' l =>
    intro b hw hr
    have ha := hr a (by simp)
    have ha' := hr a' (by simp)
    show ((b.toggle a'.1 a'.2).toggle a.1 a.2).toggles l = ((b.toggle a.1 a.2).toggle a'.1 a'.2).toggles l
    rw [toggle_comm b hw ha'.1 ha'.2 ha.1 ha.2]
  | trans h1 _ ih1 ih2 =>
    intro b hw hr
    rw [ih1 b hw hr]
    exact ih2 b hw (fun p hp => hr p (h1.mem_iff.mpr hp))

theorem card_cross (Y X r c : Nat) (hr : r < Y) (hc : c < X) :
    ((Finset.range Y ×ˢ Finset.range X).filter (fun p : Nat × Nat => p.1 = r ∨ p.2 = c)).card
      = (X - 1) + (Y - 1) + 1 := by
  have hset : (Finset.range Y ×ˢ Finset.range X).filter (fun p : Nat × Nat => p.1 = r ∨ p.2 = c)
      = ({r} ×ˢ Finset.range X) ∪ (((Finset.range Y).erase r) ×ˢ {c}) := by
    ext ⟨i, j⟩
    simp only [Finset.mem_filter, Finset.mem_product, Finset.mem_range, Finset.mem_union,
      Finset.mem_singleton, Finset.mem_erase]
    constructor
    · rintro ⟨⟨hi, hj⟩, h⟩
      by_cases e : i = r
      · exact Or.inl ⟨e, hj⟩
      · rcases h with h | h
        · exact absurd h e
        · exact Or.inr ⟨⟨e, hi⟩, h⟩
    · rintro (⟨e, hj⟩ | ⟨⟨e, hi⟩, h⟩)
      · exact ⟨⟨by omega, hj⟩, Or.inl e⟩
      · exact ⟨⟨hi, by omega⟩, Or.inr h⟩
  have hdisj : Disjoint ({r} ×ˢ Finset.range X) (((Finset.range Y).erase r) ×ˢ ({c} : Finset Nat)) := by
    rw [Finset.disjoint_left]
    rintro ⟨i, j⟩ h1 h2
    simp only [Finset.mem_product, Finset.mem_singleton, Finset.mem_erase] at h1 h2
    exact h2.1.1 h1.1
  rw [hset, Finset.card_union_of_disjoint hdisj, Finset.card_product, Finset.card_product,
    Finset.card_singleton, Finset.card_singleton, Finset.card_range,
    Finset.card_erase_of_mem (Finset.mem_range.mpr hr), Finset.card_range]
  omega

/-! ## Bit sets -/

theorem test_zero (k : Nat) : Bitset.test 0 k = false := by
  simp [Bitset.test]

theorem test_assign (b : Bitset) (k : Nat) (v : Bool) (j : Nat) :
    Bitset.test (Bitset.assign b k v) j = if j = k then v else Bitset.test b j := by
  unfold Bitset.assign Bitset.test
  by_cases h : Nat.testBit b k = v
  · rw [if_pos h]
    by_cases hj : j = k
    · subst hj; simp [h]
    · simp [hj]
  · rw [if_neg h]
    have hx : Nat.xor b (1 <<< k) = b ^^^ (2 ^ k) := by rw [Nat.one_shiftLeft]; rfl
    rw [hx, Nat.testBit_xor, Nat.testBit_two_pow]
    by_cases hj : j = k
    · subst hj
      cases hb : Nat.testBit b j <;> cases v <;> simp_all
    · have : ¬ k = j := fun e => hj e.symm
      simp [hj, this]

theorem test_xor (a b : Bitset) (j : Nat) :
    Bitset.test (Nat.xor a b) j = xor (Bitset.test a j) (Bitset.test b j) := by
  unfold Bitset.test
  exact Nat.testBit_xor a b j

/-! ## Rows of the matrix -/

theorem rowAt_set (m : Matrix) (i j : Nat) (r : Bitset) :
    rowAt (m.set i r) j = if i = j ∧ i < m.length then r else rowAt m j := by
  unfold rowAt
  exact getD_set_eq_ite m i j r 0

theorem rowAt_replicate (n i : Nat) : rowAt (List.replicate n 0) i = 0 := by
  unfold rowAt
  rw [List.getD_eq_getElem?_getD, List.getElem?_replicate]
  split <;> rfl

/-- A loop that only writes bits of row `idx` acts on that row alone. -/
theorem foldl_row_update (f : Bitset → Nat → Bitset) (idx : Nat) (l : List Nat) :
    ∀ (m : Matrix), idx < m.length →
      l.foldl (fun a i => a.set idx (f (rowAt a idx) i)) m
        = m.set idx (l.foldl f (rowAt m idx)) := by
  induction l with
  | nil =>
    intro m h
    simp only [List.foldl_nil]
    apply List.ext_getElem (by simp)
    intro n h1 h2
    rw [List.getElem_set]
    split
    · next e => subst e; unfold rowAt; rw [List.getD_eq_getElem m 0 h]
    · rfl
  | cons a l ih =>
    intro m h
    simp only [List.foldl_cons]
    rw [ih _ (by simpa using h), rowAt_set, if_pos ⟨rfl, h⟩, List.set_set]

/-! ## The builder -/

theorem buildCell_eq (Y X : Nat) (st : Grid) (row col : Nat) (m : Matrix)
    (h : row * X + col < m.length) :
    buildCell Y X st row col m = m.set (row * X + col) (buildRow Y X st row col (rowAt m (row * X + col))) := by
  unfold buildCell buildRow
  simp only [setBit, flipBit]
  rw [foldl_row_update (fun a i => Bitset.assign a (row * X + i) (!Bitset.test a (row * X + i)))
    (row * X + col) (List.range X) _ (by simpa using h)]
  rw [rowAt_set, if_pos ⟨rfl, h⟩, List.set_set]
  rw [foldl_row_update (fun a i => Bitset.assign a (i * X + col) (!Bitset.test a (i * X + col)))
    (row * X + col) (List.range Y) _ (by simpa using h)]
  rw [rowAt_set, if_pos ⟨rfl, h⟩, List.set_set]
  rw [rowAt_set, if_pos ⟨rfl, by simpa using h⟩, List.set_set]

/-- Flipping the bits `g 0, …, g (n-1)` of a bit set, `g` being injective there. -/
theorem test_flips (g : Nat → Nat) (b : Bitset) (n : Nat)
    (hg : ∀ i i', i < n → i' < n → g i = g i' → i = i') (j : Nat) :
    Bitset.test ((List.range n).foldl (fun a i => Bitset.assign a (g i) (!Bitset.test a (g i))) b) j
      = xor (Bitset.test b j) (decide (∃ i, i < n ∧ j = g i)) := by
  induction n with
  | zero => simp
  | succ n ih =>
    have ih' := ih (fun i i' h1 h2 => hg i i' (by omega) (by omega))
    rw [foldl_range_succ, test_assign]
    by_cases hj : j = g n
    · rw [if_pos hj]
      have ih'' := ih'
      rw [hj] at ih''
      rw [ih'']
      have h1 : ¬ ∃ i, i < n ∧ g n = g i := by
        rintro ⟨i, hi, e⟩
        have := hg n i (by omega) (by omega) e
        omega
      have h2 : ∃ i, i < n + 1 ∧ j = g i := ⟨n, by omega, hj⟩
      rw [hj] at h2 ⊢
      simp [h1, h2]
    · rw [if_neg hj, ih']
      have : (∃ i, i < n + 1 ∧ j = g i) ↔ (∃ i, i < n ∧ j = g i) := by
        constructor
        · rintro ⟨i, hi, e⟩
          have : i ≠ n := fun e' => hj (e' ▸ e)
          exact ⟨i, by omega, e⟩
        · rintro ⟨i, hi, e⟩
          exact ⟨i, by omega, e⟩
      simp only [this]

theorem idx_div {X i : Nat} (r : Nat) (h : i < X) : (r * X + i) / X = r := by
  rw [Nat.add_comm, Nat.add_mul_div_right _ _ (by omega : 0 < X), Nat.div_eq_of_lt h, Nat.zero_add]

theorem idx_mod {X i : Nat} (r : Nat) (h : i < X) : (r * X + i) % X = i := by
  rw [Nat.add_comm, Nat.add_mul_mod_self_right, Nat.mod_eq_of_lt h]

theorem idx_decomp (X j : Nat) : j = (j / X) * X + j % X := by
  have := Nat.div_add_mod j X
  rw [Nat.mul_comm] at this
  exact this.symm

theorem div_lt_of_lt_mul' {Y X j : Nat} (h : j < Y * X) : j / X < Y := by
  apply Nat.div_lt_of_lt_mul
  rw [Nat.mul_comm]; exact h

theorem idx_lt {Y X r c : Nat} (hr : r < Y) (hc : c < X) : r * X + c < Y * X := by
  have : (r + 1) * X ≤ Y * X := Nat.mul_le_mul_right X hr
  rw [Nat.add_mul, Nat.one_mul] at this
  omega

/-- The bits of the row the builder writes for the cell `(row, col)`, from a zero row. -/
theorem buildRow_test (Y X : Nat) (st : Grid) {row col : Nat} (hr : row < Y) (hc : col < X)
    (hN : Y * X ≤ MAX_N) :
    (∀ j, j < Y * X → Bitset.test (buildRow Y X st row col 0) j
        = decide (j / X = row ∨ j % X = col)) ∧
    Bitset.test (buildRow Y X st row col 0) MAX_N = cell st row col := by
  have hX : 0 < X := by omega
  have hidx := idx_lt hr hc
  have g1 : ∀ i i', i < X → i' < X → row * X + i = row * X + i' → i = i' := by
    intro i i' _ _ h; omega
  have g2 : ∀ i i', i < Y → i' < Y → i * X + col = i' * X + col → i = i' := by
    intro i i' _ _ h
    have h' : i * X = i' * X := by omega
    exact Nat.eq_of_mul_eq_mul_right hX h'
  constructor
  · intro j hj
    have hjM : j ≠ MAX_N := by omega
    unfold buildRow
    simp only []
    rw [test_assign, if_neg hjM, test_flips (fun i => i * X + col) _ Y g2,
      test_flips (fun i => row * X + i) _ X g1, test_assign, test_zero]
    have e1 : (∃ i, i < X ∧ j = row * X + i) ↔ j / X = row := by
      constructor
      · rintro ⟨i, hi, e⟩; rw [e]; exact idx_div row hi
      · intro e; exact ⟨j % X, Nat.mod_lt _ hX, by rw [← e]; exact idx_decomp X j⟩
    have e2 : (∃ i, i < Y ∧ j = i * X + col) ↔ j % X = col := by
      constructor
      · rintro ⟨i, hi, e⟩; rw [e]; exact idx_mod i hc
      · intro e; exact ⟨j / X, div_lt_of_lt_mul' hj, by rw [← e]; exact idx_decomp X j⟩
    have e3 : j = row * X + col ↔ (j / X = row ∧ j % X = col) := by
      constructor
      · intro e; rw [e]; exact ⟨idx_div row hc, idx_mod row hc⟩
      · rintro ⟨a, b⟩; rw [← a, ← b]; exact idx_decomp X j
    simp only [e1, e2, e3]
    by_cases a : j / X = row <;> by_cases b : j % X = col <;> simp [a, b]
  · unfold buildRow
    simp only []
    rw [test_assign, if_pos rfl]

/-- The state of `matrix` once the builder has handled the cells of index below `k`. -/
theorem buildMatrix_inner (Y X : Nat) (st : Grid) {r : Nat} (hr : r < Y) (m : Matrix)
    (hlen : m.length = Y * X)
    (hrow : ∀ i, rowAt m i = if i < r * X then buildRow Y X st (i / X) (i % X) 0 else 0)
    (c : Nat) (hc : c ≤ X) :
    ((List.range c).foldl (fun a col => buildCell Y X st r col a) m).length = Y * X ∧
    ∀ i, rowAt ((List.range c).foldl (fun a col => buildCell Y X st r col a) m) i
      = if i < r * X + c then buildRow Y X st (i / X) (i % X) 0 else 0 := by
  induction c with
  | zero => exact ⟨hlen, by simpa using hrow⟩
  | succ c ih =>
    obtain ⟨hl, hi⟩ := ih (by omega)
    have hcX : c < X := by omega
    have hidx : r * X + c < Y * X := idx_lt hr hcX
    have h0 : rowAt ((List.range c).foldl (fun a col => buildCell Y X st r col a) m) (r * X + c) = 0 := by
      rw [hi]; exact if_neg (by omega)
    rw [foldl_range_succ, buildCell_eq Y X st r c _ (by rw [hl]; exact hidx)]
    refine ⟨by rw [List.length_set]; exact hl, ?_⟩
    intro i
    rw [rowAt_set, h0]
    by_cases e : r * X + c = i
    · subst e
      have hlt : r * X + c < ((List.range c).foldl (fun a col => buildCell Y X st r col a) m).length := by
        rw [hl]; exact hidx
      rw [if_pos ⟨rfl, hlt⟩, if_pos (by omega), idx_div r hcX, idx_mod r hcX]
    · rw [if_neg (fun h => e h.1), hi i]
      by_cases h1 : i < r * X + c
      · rw [if_pos h1, if_pos (by omega)]
      · rw [if_neg h1, if_neg (by omega)]

theorem buildMatrix_outer (Y X : Nat) (st : Grid) (r : Nat) (hr : r ≤ Y) :
    ((List.range r).foldl
      (fun m row => (List.range X).foldl (fun a col => buildCell Y X st row col a) m)
      (List.replicate (Y * X) 0)).length = Y * X ∧
    ∀ i, rowAt ((List.range r).foldl
      (fun m row => (List.range X).foldl (fun a col => buildCell Y X st row col a) m)
      (List.replicate (Y * X) 0)) i
      = if i < r * X then buildRow Y X st (i / X) (i % X) 0 else 0 := by
  induction r with
  | zero =>
    refine ⟨by simp, ?_⟩
    intro i
    simp only [List.range_zero, List.foldl_nil, Nat.zero_mul, Nat.not_lt_zero, if_false]
    exact rowAt_replicate _ _
  | succ r ih =>
    obtain ⟨hl, hi⟩ := ih (by omega)
    rw [foldl_range_succ]
    have := buildMatrix_inner Y X st (by omega : r < Y) _ hl hi X (Nat.le_refl X)
    rw [Nat.add_mul, Nat.one_mul]
    exact this

/-- The rows of the matrix the builder produces. -/
theorem buildMatrix_rows (Y X : Nat) (st : Grid) :
    (buildMatrix Y X st).length = Y * X ∧
    ∀ i, i < Y * X → rowAt (buildMatrix Y X st) i = buildRow Y X st (i / X) (i % X) 0 := by
  obtain ⟨hl, hi⟩ := buildMatrix_outer Y X st Y (Nat.le_refl Y)
  refine ⟨hl, ?_⟩
  intro i h
  unfold buildMatrix
  rw [hi i, if_pos h]

/-- C9: for `ySize, xSize ≥ 1` with `N = ySize * xSize ≤ 10000` and every grid
`state`, the matrix the builder loop produces has `N` rows, and for all cell indices
`i, j < N` its coefficient bit `(i, j)` is set exactly when the cells `i` and `j`
(row-major, `idx = row * xSize + col`) share a grid row or a grid column, the diagonal
bit `(i, i)` included, while bit `MAX_N = 10000` of row `i` is the value of cell `i`. -/
theorem buildMatrix_spec (ySize xSize : Nat) (state : Grid)
    (_hy : 1 ≤ ySize) (hx : 1 ≤ xSize) (hN : ySize * xSize ≤ 10000) :
    (buildMatrix ySize xSize state).length = ySize * xSize ∧
    ∀ i, i < ySize * xSize →
      (∀ j, j < ySize * xSize →
        Bitset.test (rowAt (buildMatrix ySize xSize state) i) j
          = decide (i / xSize = j / xSize ∨ i % xSize = j % xSize)) ∧
      Bitset.test (rowAt (buildMatrix ySize xSize state) i) i = true ∧
      Bitset.test (rowAt (buildMatrix ySize xSize state) i) 10000
        = cell state (i / xSize) (i % xSize) := by
  obtain ⟨hl, hrows⟩ := buildMatrix_rows ySize xSize state
  refine ⟨hl, ?_⟩
  intro i hi
  have hr : i / xSize < ySize := div_lt_of_lt_mul' hi
  have hc : i % xSize < xSize := Nat.mod_lt _ (by omega)
  obtain ⟨hb, hrhs⟩ := buildRow_test ySize xSize state hr hc hN
  rw [hrows i hi]
  refine ⟨?_, ?_, hrhs⟩
  · intro j hj
    rw [hb j hj]
    congr 1
    apply propext
    constructor
    · rintro (h | h)
      · exact Or.inl h.symm
      · exact Or.inr h.symm
    · rintro (h | h)
      · exact Or.inl h.symm
      · exact Or.inr h.symm
  · rw [hb i hi]
    simp

theorem buildMatrix_spec_witness :
    (buildMatrix 2 3 [[true, false, true], [false, false, true]]).length = 2 * 3 ∧
    ∀ i, i < 2 * 3 →
      (∀ j, j < 2 * 3 →
        Bitset.test (rowAt (buildMatrix 2 3 [[true, false, true], [false, false, true]]) i) j
          = decide (i / 3 = j / 3 ∨ i % 3 = j % 3)) ∧
      Bitset.test (rowAt (buildMatrix 2 3 [[true, false, true], [false, false, true]]) i) i = true ∧
      Bitset.test (rowAt (buildMatrix 2 3 [[true, false, true], [false, false, true]]) i) 10000
        = cell [[true, false, true], [false, false, true]] (i / 3) (i % 3) :=
  buildMatrix_spec 2 3 [[true, false, true], [false, false, true]] (by decide) (by decide) (by decide)

/-! ## Sums over GF(2) -/

theorem xorSum_succ (n : Nat) (f : Nat → Bool) : xorSum (n + 1) f = xor (xorSum n f) (f n) := by
  unfold xorSum
  rw [foldl_range_succ]

theorem xorSum_congr (n : Nat) (f g : Nat → Bool) (h : ∀ j, j < n → f j = g j) :
    xorSum n f = xorSum n g := by
  induction n with
  | zero => rfl
  | succ n ih =>
    rw [xorSum_succ, xorSum_succ, ih (fun j hj => h j (by omega)), h n (by omega)]

theorem xorSum_add (a b : Nat) (f : Nat → Bool) :
    xorSum (a + b) f = xor (xorSum a f) (xorSum b fun c => f (a + c)) := by
  induction b with
  | zero => simp [xorSum]
  | succ b ih =>
    rw [← Nat.add_assoc, xorSum_succ, xorSum_succ, ih, Bool.xor_assoc]

theorem xorSum_mul (Y X : Nat) (f : Nat → Bool) :
    xorSum Y (fun r => xorSum X fun c => f (r * X + c)) = xorSum (Y * X) f := by
  induction Y with
  | zero => simp [xorSum]
  | succ Y ih =>
    rw [xorSum_succ, ih, Nat.add_mul, Nat.one_mul, xorSum_add]

/-! ## The application loop -/

theorem applyPress_inner (Y X : Nat) (press : List Bool) {r : Nat} (hr : r < Y) (s : SecureBox)
    (hY : s.ySize = Y) (hX : s.xSize = X) (hw : WellFormed Y X s.box) (c : Nat) (hc : c ≤ X) :
    ((List.range c).foldl
      (fun t c => if pressAt press (r * X + c) = true then t.toggle r c else t) s).ySize = Y ∧
    ((List.range c).foldl
      (fun t c => if pressAt press (r * X + c) = true then t.toggle r c else t) s).xSize = X ∧
    WellFormed Y X ((List.range c).foldl
      (fun t c => if pressAt press (r * X + c) = true then t.toggle r c else t) s).box ∧
    ∀ i j, i < Y → j < X →
      cell ((List.range c).foldl
        (fun t c => if pressAt press (r * X + c) = true then t.toggle r c else t) s).box i j
        = xor (cell s.box i j)
            (xorSum c fun c' => pressAt press (r * X + c') && decide (i = r ∨ j = c')) := by
  induction c with
  | zero => exact ⟨hY, hX, hw, by intro i j _ _; simp [xorSum]⟩
  | succ c ih =>
    obtain ⟨h1, h2, h3, h4⟩ := ih (by omega)
    rw [foldl_range_succ]
    generalize (List.range c).foldl
      (fun t c => if pressAt press (r * X + c) = true then t.toggle r c else t) s = t at h1 h2 h3 h4
    subst h1; subst h2
    by_cases hp : pressAt press (r * t.xSize + c) = true
    · rw [if_pos hp]
      obtain ⟨t1, t2, t3, t4⟩ := toggle_spec t h3 hr (by omega : c < t.xSize)
      refine ⟨t1, t2, t3, ?_⟩
      intro i j hi hj
      rw [t4 i j hi hj, h4 i j hi hj, xorSum_succ, hp, Bool.xor_assoc]
      simp
    · rw [if_neg hp]
      refine ⟨rfl, rfl, h3, ?_⟩
      intro i j hi hj
      rw [h4 i j hi hj, xorSum_succ]
      simp [hp]

theorem applyPress_outer (Y X : Nat) (press : List Bool) (s : SecureBox)
    (hY : s.ySize = Y) (hX : s.xSize = X) (hw : WellFormed Y X s.box) (r : Nat) (hr : r ≤ Y) :
    ((List.range r).foldl
      (fun s r => (List.range X).foldl
        (fun t c => if pressAt press (r * X + c) = true then t.toggle r c else t) s) s).ySize = Y ∧
    ((List.range r).foldl
      (fun s r => (List.range X).foldl
        (fun t c => if pressAt press (r * X + c) = true then t.toggle r c else t) s) s).xSize = X ∧
    WellFormed Y X ((List.range r).foldl
      (fun s r => (List.range X).foldl
        (fun t c => if pressAt press (r * X + c) = true then t.toggle r c else t) s) s).box ∧
    ∀ i j, i < Y → j < X →
      cell ((List.range r).foldl
        (fun s r => (List.range X).foldl
          (fun t c => if pressAt press (r * X + c) = true then t.toggle r c else t) s) s).box i j
        = xor (cell s.box i j)
            (xorSum r fun r' => xorSum X fun c' =>
              pressAt press (r' * X + c') && decide (i = r' ∨ j = c')) := by
  induction r with
  | zero => exact ⟨hY, hX, hw, by intro i j _ _; simp [xorSum]⟩
  | succ r ih =>
    obtain ⟨h1, h2, h3, h4⟩ := ih (by omega)
    rw [foldl_range_succ]
    obtain ⟨k1, k2, k3, k4⟩ :=
      applyPress_inner Y X press (by omega : r < Y) _ h1 h2 h3 X (Nat.le_refl X)
    refine ⟨k1, k2, k3, ?_⟩
    intro i j hi hj
    rw [k4 i j hi hj, h4 i j hi hj, xorSum_succ, Bool.xor_assoc]

theorem applyPress_cell (Y X : Nat) (st : Grid) (press : List Bool) (hw : WellFormed Y X st)
    (hN : Y * X ≤ MAX_N) :
    WellFormed Y X (applyPress Y X press ⟨st, Y, X⟩).box ∧
    ∀ r c, r < Y → c < X →
      cell (applyPress Y X press ⟨st, Y, X⟩).box r c
        = xor (cell st r c) (mulVec Y X st press (r * X + c)) := by
  obtain ⟨_, _, h3, h4⟩ := applyPress_outer Y X press ⟨st, Y, X⟩ rfl rfl hw Y (Nat.le_refl Y)
  refine ⟨h3, ?_⟩
  intro r c hr hc
  have h := h4 r c hr hc
  unfold applyPress
  rw [h]
  congr 1
  have e1 : (xorSum Y fun r' => xorSum X fun c' =>
        pressAt press (r' * X + c') && decide (r = r' ∨ c = c'))
      = xorSum Y fun r' => xorSum X fun c' =>
        (fun k => pressAt press k && decide (r = k / X ∨ c = k % X)) (r' * X + c') := by
    apply xorSum_congr
    intro r' _
    apply xorSum_congr
    intro c' hc'
    simp only [idx_div r' hc', idx_mod r' hc']
  rw [e1]
  refine (xorSum_mul Y X fun k => pressAt press k && decide (r = k / X ∨ c = k % X)).trans ?_
  unfold mulVec
  apply xorSum_congr
  intro k hk
  have hi : r * X + c < Y * X := idx_lt hr hc
  obtain ⟨_, hrows⟩ := buildMatrix_rows Y X st
  obtain ⟨hb, _⟩ := buildRow_test Y X st hr hc hN
  unfold coef
  rw [hrows _ hi, idx_div r hc, idx_mod r hc, hb k hk, Bool.and_comm]
  congr 2
  apply propext
  constructor
  · rintro (h | h)
    · exact Or.inl h.symm
    · exact Or.inr h.symm
  · rintro (h | h)
    · exact Or.inl h.symm
    · exact Or.inr h.symm

/-- C10: the builder's coefficient matrix `A` models `toggle` exactly. For a well-formed
`ySize × xSize` grid `st` (at most 10000 cells) and every press vector `press`, after the
application loop has toggled, in row-major order, each cell `idx` with `press[idx]` set,
the cell of index `i = r * xSize + c` holds `st(i) XOR (A * press)(i)`; hence the final
grid is all-false exactly when `A * press = st` over GF(2). -/
theorem applyPress_eq_mulVec (ySize xSize : Nat) (st : Grid) (press : List Bool)
    (hw : WellFormed ySize xSize st) (hN : ySize * xSize ≤ 10000) :
    (∀ r c, r < ySize → c < xSize →
      cell (applyPress ySize xSize press ⟨st, ySize, xSize⟩).box r c
        = xor (cell st r c) (mulVec ySize xSize st press (r * xSize + c))) ∧
    ((∀ r c, r < ySize → c < xSize →
        cell (applyPress ySize xSize press ⟨st, ySize, xSize⟩).box r c = false) ↔
      ∀ i, i < ySize * xSize →
        mulVec ySize xSize st press i = cell st (i / xSize) (i % xSize)) := by
  obtain ⟨_, hcell⟩ := applyPress_cell ySize xSize st press hw hN
  refine ⟨hcell, ?_⟩
  constructor
  · intro h i hi
    have hr : i / xSize < ySize := div_lt_of_lt_mul' hi
    have hc : i % xSize < xSize := Nat.mod_lt _ (by
      rcases Nat.eq_zero_or_pos xSize with e | e
      · rw [e] at hi; simp at hi
      · exact e)
    have h1 := h _ _ hr hc
    rw [hcell _ _ hr hc, ← idx_decomp xSize i] at h1
    revert h1
    cases mulVec ySize xSize st press i <;> cases cell st (i / xSize) (i % xSize) <;> simp
  · intro h r c hr hc
    have h1 := h (r * xSize + c) (idx_lt hr hc)
    rw [idx_div r hc, idx_mod r hc] at h1
    rw [hcell r c hr hc, h1]
    simp

theorem applyPress_eq_mulVec_witness :
    (WellFormed 2 2 [[true, false], [false, false]] ∧ 2 * 2 ≤ 10000) ∧
    ((∀ r c, r < 2 → c < 2 →
      cell (applyPress 2 2 [true, true, true, false] ⟨[[true, false], [false, false]], 2, 2⟩).box r c
        = xor (cell [[true, false], [false, false]] r c)
            (mulVec 2 2 [[true, false], [false, false]] [true, true, true, false] (r * 2 + c))) ∧
    ((∀ r c, r < 2 → c < 2 →
        cell (applyPress 2 2 [true, true, true, false]
          ⟨[[true, false], [false, false]], 2, 2⟩).box r c = false) ↔
      ∀ i, i < 2 * 2 →
        mulVec 2 2 [[true, false], [false, false]] [true, true, true, false] i
          = cell [[true, false], [false, false]] (i / 2) (i % 2))) :=
  ⟨⟨⟨rfl, by decide⟩, by decide⟩,
    applyPress_eq_mulVec 2 2 [[true, false], [false, false]] [true, true, true, false]
      ⟨rfl, by decide⟩ (by decide)⟩

/-! ## The entry point -/

theorem foldl_keeps {α β : Type} (P : α → Prop) (f : α → β → α)
    (hf : ∀ s a, P s → P (f s a)) (l : List β) : ∀ s, P s → P (l.foldl f s) := by
  induction l with
  | nil => intro s h; exact h
  | cons a l ih => intro s h; exact ih _ (hf s a h)

theorem applyPress_sizes (Y X : Nat) (press : List Bool) (b : SecureBox) :
    (applyPress Y X press b).ySize = b.ySize ∧ (applyPress Y X press b).xSize = b.xSize := by
  unfold applyPress
  apply foldl_keeps (fun s : SecureBox => s.ySize = b.ySize ∧ s.xSize = b.xSize)
  · intro s r hs
    apply foldl_keeps (fun s : SecureBox => s.ySize = b.ySize ∧ s.xSize = b.xSize)
    · intro t c ht
      split
      · exact ht
      · exact ht
    · exact hs
  · exact ⟨rfl, rfl⟩

theorem isLocked_iff (b : SecureBox) :
    b.isLocked = true ↔ ∃ y x, y < b.ySize ∧ x < b.xSize ∧ cell b.box y x = true := by
  unfold SecureBox.isLocked
  simp only [List.any_eq_true, List.mem_range]
  constructor
  · rintro ⟨x, hx, y, hy, h⟩
    exact ⟨y, x, hy, hx, h⟩
  · rintro ⟨y, x, hy, hx, h⟩
    exact ⟨x, hx, y, hy, h⟩

theorem applyPress_nil (Y X : Nat) (b : SecureBox) : applyPress Y X [] b = b := by
  unfold applyPress
  apply foldl_keeps (fun s : SecureBox => s = b)
  · intro s r hs
    apply foldl_keeps (fun s : SecureBox => s = b)
    · intro t c ht
      have : pressAt [] (r * X + c) = false := rfl
      rw [this]
      simpa using ht
    · exact hs
  · rfl

theorem mul_eq_zero_of_dim {Y X : Nat} (h : Y = 0 ∨ X = 0) : Y * X = 0 := by
  rcases h with h | h <;> simp [h]

/-! ## The claims about `toggle` -/

/-- C2: on a well-formed `ySize × xSize` box and for an in-range cell `(r, c)`,
`toggle(r, c)` negates the cell `(i, j)` exactly when `i = r` or `j = c` (the pressed cell
itself a net single time) and leaves every other cell as it was; so exactly
`(xSize - 1) + (ySize - 1) + 1` cells change value. -/
theorem toggle_negates_row_and_column (b : SecureBox)
    (hw : WellFormed b.ySize b.xSize b.box) (r c : Nat) (hr : r < b.ySize) (hc : c < b.xSize) :
    (∀ i j, i < b.ySize → j < b.xSize →
      cell (b.toggle r c).box i j
        = if i = r ∨ j = c then !cell b.box i j else cell b.box i j) ∧
    ((Finset.range b.ySize ×ˢ Finset.range b.xSize).filter
      (fun p : Nat × Nat => cell (b.toggle r c).box p.1 p.2 ≠ cell b.box p.1 p.2)).card
      = (b.xSize - 1) + (b.ySize - 1) + 1 := by
  obtain ⟨_, _, _, hcell⟩ := toggle_spec b hw hr hc
  constructor
  · intro i j hi hj
    rw [hcell i j hi hj]
    by_cases h : i = r ∨ j = c <;> simp [h]
  · rw [← card_cross b.ySize b.xSize r c hr hc]
    congr 1
    apply Finset.filter_congr
    rintro ⟨i, j⟩ hp
    simp only [Finset.mem_product, Finset.mem_range] at hp
    rw [hcell i j hp.1 hp.2]
    by_cases h : i = r ∨ j = c <;> simp [h]

theorem toggle_negates_row_and_column_witness :
    (WellFormed 2 3 [[true, false, true], [false, false, true]] ∧ 1 < 2 ∧ 2 < 3) ∧
    ((∀ i j, i < 2 → j < 3 →
      cell ((⟨[[true, false, true], [false, false, true]], 2, 3⟩ : SecureBox).toggle 1 2).box i j
        = if i = 1 ∨ j = 2 then !cell [[true, false, true], [false, false, true]] i j
          else cell [[true, false, true], [false, false, true]] i j) ∧
    ((Finset.range 2 ×ˢ Finset.range 3).filter
      (fun p : Nat × Nat =>
        cell ((⟨[[true, false, true], [false, false, true]], 2, 3⟩ : SecureBox).toggle 1 2).box
            p.1 p.2
          ≠ cell [[true, false, true], [false, false, true]] p.1 p.2)).card
      = (3 - 1) + (2 - 1) + 1) :=
  ⟨⟨⟨rfl, by decide⟩, by decide, by decide⟩,
    toggle_negates_row_and_column ⟨[[true, false, true], [false, false, true]], 2, 3⟩
      ⟨rfl, by decide⟩ 1 2 (by decide) (by decide)⟩

/-- C3: on a well-formed box and for an in-range cell `(r, c)`, two successive calls
`toggle(r, c)` give back exactly the original box. -/
theorem toggle_involution (b : SecureBox) (hw : WellFormed b.ySize b.xSize b.box)
    (r c : Nat) (hr : r < b.ySize) (hc : c < b.xSize) :
    (b.toggle r c).toggle r c = b :=
  toggle_toggle_self b hw hr hc

theorem toggle_involution_witness :
    (WellFormed 2 3 [[true, false, true], [false, false, true]] ∧ 1 < 2 ∧ 2 < 3) ∧
    ((⟨[[true, false, true], [false, false, true]], 2, 3⟩ : SecureBox).toggle 1 2).toggle 1 2
      = ⟨[[true, false, true], [false, false, true]], 2, 3⟩ :=
  ⟨⟨⟨rfl, by decide⟩, by decide, by decide⟩,
    toggle_involution ⟨[[true, false, true], [false, false, true]], 2, 3⟩
      ⟨rfl, by decide⟩ 1 2 (by decide) (by decide)⟩

/-- C4: on a well-formed box, a list of in-range cells toggled in any permuted order
gives the same final box as toggled in the original order; in particular two
calls `toggle(a)`, `toggle(b)` commute. -/
theorem toggles_order_independent (b : SecureBox) (hw : WellFormed b.ySize b.xSize b.box)
    (ps qs : List (Nat × Nat)) (hin : ∀ p ∈ ps, p.1 < b.ySize ∧ p.2 < b.xSize)
    (hperm : ps.Perm qs) :
    b.toggles ps = b.toggles qs ∧
    ∀ y x y' x', y < b.ySize → x < b.xSize → y' < b.ySize → x' < b.xSize →
      (b.toggle y x).toggle y' x' = (b.toggle y' x').toggle y x :=
  ⟨toggles_perm hperm b hw hin, fun _ _ _ _ h1 h2 h3 h4 => toggle_comm b hw h1 h2 h3 h4⟩

theorem toggles_order_independent_witness :
    (WellFormed 2 3 [[true, false, true], [false, false, true]] ∧
      (∀ p ∈ [((0 : Nat), (1 : Nat)), (1, 2), (0, 0)], p.1 < 2 ∧ p.2 < 3) ∧
      [((0 : Nat), (1 : Nat)), (1, 2), (0, 0)].Perm [(0, 0), (0, 1), (1, 2)]) ∧
    ((⟨[[true, false, true], [false, false, true]], 2, 3⟩ : SecureBox).toggles
        [(0, 1), (1, 2), (0, 0)]
      = (⟨[[true, false, true], [false, false, true]], 2, 3⟩ : SecureBox).toggles
        [(0, 0), (0, 1), (1, 2)] ∧
    ∀ y x y' x', y < 2 → x < 3 → y' < 2 → x' < 3 →
      ((⟨[[true, false, true], [false, false, true]], 2, 3⟩ : SecureBox).toggle y x).toggle y' x'
        = ((⟨[[true, false, true], [false, false, true]], 2, 3⟩ : SecureBox).toggle y' x').toggle
          y x) :=
  ⟨⟨⟨rfl, by decide⟩, by decide, by decide⟩,
    toggles_order_independent ⟨[[true, false, true], [false, false, true]], 2, 3⟩
      ⟨rfl, by decide⟩ [(0, 1), (1, 2), (0, 0)] [(0, 0), (0, 1), (1, 2)] (by decide) (by decide)⟩

/-! ## The claims about `openBox` -/

set_option maxRecDepth 1000000

/-- C1 (failing input): on the `4 × 3` box, the grid left by the single call
`toggle(2, 0)` on the all-false grid is reachable, yet `openBox` computes the press
vector with only bit 5 set, leaves nine cells `true` and returns `true` (still locked);
the elimination found no pivot in column 5, so rows 5..8 of the reduced matrix hold
the pivots of columns 6, 7, 9, 10 while `press[i]` is read from row `i`. -/
theorem openBox_4x3_stays_locked :
    Reachable 4 3 [[true, false, false], [true, false, false], [true, true, true],
      [true, false, false]] ∧
    computePress 4 3 [[true, false, false], [true, false, false], [true, true, true],
      [true, false, false]]
      = [false, false, false, false, false, true, false, false, false, false, false, false] ∧
    (gauss 12 (buildMatrix 4 3 [[true, false, false], [true, false, false], [true, true, true],
      [true, false, false]])).2 = 9 ∧
    (openBoxFinal 4 3 [[true, false, false], [true, false, false], [true, true, true],
      [true, false, false]]).getState
      = [[true, false, true], [false, true, true], [true, true, false], [true, false, true]] ∧
    openBox 4 3 [[true, false, false], [true, false, false], [true, true, true],
      [true, false, false]] = true := by
  refine ⟨⟨[(2, 0)], by decide, by decide⟩, ?_, ?_, ?_, ?_⟩ <;> decide

/-- C5: for every `ySize`, `xSize` and every initial grid, the value `openBox` returns is
`isLocked()` of the box after the application loop; it is `true` exactly when some cell
of that final grid is `true` and `false` exactly when all its cells are `false`. -/
theorem openBox_returns_final_lock_status (ySize xSize : Nat) (st : Grid) :
    openBox ySize xSize st = (openBoxFinal ySize xSize st).isLocked ∧
    (openBox ySize xSize st = true ↔
      ∃ y x, y < ySize ∧ x < xSize ∧ cell (openBoxFinal ySize xSize st).getState y x = true) ∧
    (openBox ySize xSize st = false ↔
      ∀ y x, y < ySize → x < xSize → cell (openBoxFinal ySize xSize st).getState y x = false) := by
  have hs := applyPress_sizes ySize xSize (computePress ySize xSize st) ⟨st, ySize, xSize⟩
  have hy : (openBoxFinal ySize xSize st).ySize = ySize := hs.1
  have hx : (openBoxFinal ySize xSize st).xSize = xSize := hs.2
  have hiff := isLocked_iff (openBoxFinal ySize xSize st)
  rw [hy, hx] at hiff
  refine ⟨rfl, hiff, ?_⟩
  constructor
  · intro h y x hy' hx'
    cases hc : cell (openBoxFinal ySize xSize st).getState y x
    · rfl
    · have : openBox ySize xSize st = true := hiff.mpr ⟨y, x, hy', hx', hc⟩
      rw [h] at this
      exact absurd this (by decide)
  · intro h
    cases ho : openBox ySize xSize st
    · rfl
    · obtain ⟨y, x, hy', hx', hc⟩ := hiff.mp ho
      have hc' : cell (openBoxFinal ySize xSize st).getState y x = true := hc
      rw [h y x hy' hx'] at hc'
      exact absurd hc' (by decide)

/-- C6 (counterexample): with `ySize = 0` and `xSize = 3` the constructor's `resize`
leaves a grid without rows, and on it `openBox` signals no `InvalidDimensions`: it
returns the lock status `false`. (In the constructor, `shuffle()` evaluates
`rng() % ySize` when it draws at least one toggle; the embedding starts from the grid
the constructor has returned.) -/
theorem openBox_zero_rows_no_error :
    (0 = 0 ∨ 3 = 0 ∨ 0 * 3 > 10000) ∧
    openBoxOutcome 0 3 [] = Except.ok false ∧
    openBoxOutcome 0 3 [] ≠ Except.error SolverError.InvalidDimensions := by
  refine ⟨Or.inl rfl, rfl, ?_⟩
  intro h
  cases h

/-- C6 (amended): when `ySize` is zero or `xSize` is zero, `openBox` signals no error; on
the grid the constructor has returned it goes on with `N = 0`: the matrix has no row, the
press vector is empty, the grid is left as it was and the lock status returned is
`false`. -/
theorem openBox_zero_dimension (ySize xSize : Nat) (st : Grid) (h : ySize = 0 ∨ xSize = 0) :
    buildMatrix ySize xSize st = [] ∧
    computePress ySize xSize st = [] ∧
    (openBoxFinal ySize xSize st).getState = st ∧
    openBoxOutcome ySize xSize st = Except.ok false := by
  have hN : ySize * xSize = 0 := mul_eq_zero_of_dim h
  have hm : buildMatrix ySize xSize st = [] := by
    apply List.eq_nil_of_length_eq_zero
    rw [(buildMatrix_rows ySize xSize st).1, hN]
  have hp : computePress ySize xSize st = [] := by
    unfold computePress
    simp only [hN]
    rfl
  have hf : openBoxFinal ySize xSize st = ⟨st, ySize, xSize⟩ := by
    unfold openBoxFinal
    rw [hp, applyPress_nil]
  refine ⟨hm, hp, by rw [hf]; rfl, ?_⟩
  unfold openBoxOutcome openBox
  rw [hf]
  congr 1
  cases hl : SecureBox.isLocked ⟨st, ySize, xSize⟩
  · rfl
  · obtain ⟨y, x, hy, hx, _⟩ := (isLocked_iff _).mp hl
    simp only at hy hx
    rcases h with h | h
    · omega
    · omega

theorem openBox_zero_dimension_witness :
    ((2 : Nat) = 0 ∨ (0 : Nat) = 0) ∧
    (buildMatrix 2 0 [[], []] = [] ∧
    computePress 2 0 [[], []] = [] ∧
    (openBoxFinal 2 0 [[], []]).getState = [[], []] ∧
    openBoxOutcome 2 0 [[], []] = Except.ok false) :=
  ⟨Or.inr rfl, openBox_zero_dimension 2 0 [[], []] (Or.inr rfl)⟩

/-- C7: for the `2 × 2` grid `[[true,false],[false,false]]` the builder produces a system
of 4 equations in 4 unknowns, and the press vector `openBox` computes, applied through
`toggle`, leaves the grid `[[false,false],[false,false]]`; `openBox` returns `false`. -/
theorem openBox_2x2_scenario :
    (buildMatrix 2 2 [[true, false], [false, false]]).length = 4 ∧
    computePress 2 2 [[true, false], [false, false]] = [true, true, true, false] ∧
    ((⟨[[true, false], [false, false]], 2, 2⟩ : SecureBox).toggles [(0, 0), (0, 1), (1, 0)]).box
      = [[false, false], [false, false]] ∧
    (openBoxFinal 2 2 [[true, false], [false, false]]).getState
      = [[false, false], [false, false]] ∧
    openBox 2 2 [[true, false], [false, false]] = false := by
  refine ⟨?_, ?_, ?_, ?_, ?_⟩ <;> decide

/-- C8: on a `1 × 1` grid `toggle(0, 0)` negates the single cell, and for both initial
values `openBox` presses the cell exactly when it is `true` (so at most once), leaves it
`false` and returns `false`. -/
theorem openBox_1x1 (v : Bool) :
    ((⟨[[v]], 1, 1⟩ : SecureBox).toggle 0 0).box = [[!v]] ∧
    computePress 1 1 [[v]] = [v] ∧
    (computePress 1 1 [[v]]).count true ≤ 1 ∧
    (openBoxFinal 1 1 [[v]]).getState = [[false]] ∧
    openBox 1 1 [[v]] = false := by
  cases v
  · refine ⟨?_, ?_, ?_, ?_, ?_⟩ <;> decide
  · refine ⟨?_, ?_, ?_, ?_, ?_⟩ <;> decide

/-! ## The search, the swap and the clearing loop -/

theorem findSel_some {m : Matrix} {N row col sel : Nat} (h : findSel m N row col = some sel) :
    row ≤ sel ∧ sel < N ∧ Bitset.test (rowAt m sel) col = true := by
  unfold findSel at h
  have h1 := List.find?_some h
  have h2 := List.mem_of_find?_eq_some h
  rw [List.mem_range'_1] at h2
  exact ⟨h2.1, by omega, h1⟩

theorem findSel_none {m : Matrix} {N row col : Nat} (h : findSel m N row col = none) :
    ∀ i, row ≤ i → i < N → Bitset.test (rowAt m i) col = false := by
  unfold findSel at h
  rw [List.find?_eq_none] at h
  intro i h1 h2
  have := h i (by rw [List.mem_range'_1]; omega)
  simpa using this

theorem length_swapRows (m : Matrix) (row sel : Nat) : (swapRows m row sel).length = m.length := by
  simp [swapRows]

theorem rowAt_swapRows (m : Matrix) {row sel : Nat} (hr : row < m.length) (hs : sel < m.length)
    (i : Nat) :
    rowAt (swapRows m row sel) i
      = if i = sel then rowAt m row else if i = row then rowAt m sel else rowAt m i := by
  unfold swapRows
  rw [rowAt_set, rowAt_set]
  by_cases h1 : i = sel
  · subst h1
    rw [if_pos ⟨rfl, by simpa using hs⟩, if_pos rfl]
  · have h1' : ¬ sel = i := fun e => h1 e.symm
    rw [if_neg (fun h => h1' h.1), if_neg h1]
    by_cases h2 : i = row
    · subst h2
      rw [if_pos ⟨rfl, hr⟩, if_pos rfl]
    · have h2' : ¬ row = i := fun e => h2 e.symm
      rw [if_neg (fun h => h2' h.1), if_neg h2]

/-- The clearing loop reads and writes as if every row were computed from the matrix it
started with: row `i` is written at step `i` only, and the pivot row is never written. -/
theorem eliminate_prefix (m : Matrix) (row col : Nat) (n : Nat) :
    ((List.range n).foldl
        (fun a i =>
          if i ≠ row ∧ Bitset.test (rowAt a i) col = true
          then a.set i (Nat.xor (rowAt a i) (rowAt a row)) else a) m).length = m.length ∧
    ∀ i, rowAt ((List.range n).foldl
        (fun a i =>
          if i ≠ row ∧ Bitset.test (rowAt a i) col = true
          then a.set i (Nat.xor (rowAt a i) (rowAt a row)) else a) m) i
      = if i < n ∧ i < m.length ∧ i ≠ row ∧ Bitset.test (rowAt m i) col = true
        then Nat.xor (rowAt m i) (rowAt m row) else rowAt m i := by
  induction n with
  | zero => exact ⟨rfl, by intro i; simp⟩
  | succ n ih =>
    obtain ⟨hl, hi⟩ := ih
    rw [foldl_range_succ]
    generalize (List.range n).foldl
        (fun a i =>
          if i ≠ row ∧ Bitset.test (rowAt a i) col = true
          then a.set i (Nat.xor (rowAt a i) (rowAt a row)) else a) m = a at hl hi
    have hn : rowAt a n = rowAt m n := by
      rw [hi n]; exact if_neg (fun h => absurd h.1 (Nat.lt_irrefl n))
    have hrow : rowAt a row = rowAt m row := by
      rw [hi row]; exact if_neg (fun h => h.2.2.1 rfl)
    by_cases hc : n ≠ row ∧ Bitset.test (rowAt a n) col = true
    · rw [if_pos hc]
      refine ⟨by rw [List.length_set]; exact hl, ?_⟩
      intro i
      rw [rowAt_set, hn, hrow, hl]
      rw [hn] at hc
      by_cases e : n = i
      · subst e
        by_cases hlen : n < m.length
        · rw [if_pos ⟨rfl, hlen⟩, if_pos ⟨by omega, hlen, hc.1, hc.2⟩]
        · rw [if_neg (fun h => hlen h.2), hi n, if_neg (fun h => hlen h.2.1),
            if_neg (fun h => hlen h.2.1)]
      · rw [if_neg (fun h => e h.1), hi i]
        by_cases h1 : i < n ∧ i < m.length ∧ i ≠ row ∧ Bitset.test (rowAt m i) col = true
        · rw [if_pos h1, if_pos ⟨by omega, h1.2⟩]
        · rw [if_neg h1, if_neg (fun h => h1 ⟨by omega, h.2⟩)]
    · rw [if_neg hc]
      refine ⟨hl, ?_⟩
      intro i
      rw [hi i]
      rw [hn] at hc
      by_cases h1 : i < n ∧ i < m.length ∧ i ≠ row ∧ Bitset.test (rowAt m i) col = true
      · rw [if_pos h1, if_pos ⟨by omega, h1.2⟩]
      · rw [if_neg h1]
        by_cases e : i = n
        · subst e
          rw [if_neg (fun h => hc ⟨h.2.2.1, h.2.2.2⟩)]
        · rw [if_neg (fun h => h1 ⟨by omega, h.2⟩)]

theorem eliminate_spec (m : Matrix) (N row col : Nat) (hlen : m.length = N) :
    (eliminate m N row col).length = N ∧
    ∀ i, i < N → rowAt (eliminate m N row col) i
      = if i ≠ row ∧ Bitset.test (rowAt m i) col = true
        then Nat.xor (rowAt m i) (rowAt m row) else rowAt m i := by
  obtain ⟨hl, hi⟩ := eliminate_prefix m row col N
  refine ⟨by unfold eliminate; rw [hl, hlen], ?_⟩
  intro i h
  unfold eliminate
  rw [hi i]
  by_cases h1 : i ≠ row ∧ Bitset.test (rowAt m i) col = true
  · rw [if_pos h1, if_pos ⟨h, by omega, h1⟩]
  · rw [if_neg h1, if_neg (fun h' => h1 h'.2.2)]

/-! ## The elimination keeps the solution set -/

theorem xorSum_xor (n : Nat) (f g : Nat → Bool) :
    xorSum n (fun j => xor (f j) (g j)) = xor (xorSum n f) (xorSum n g) := by
  induction n with
  | zero => rfl
  | succ n ih =>
    rw [xorSum_succ, xorSum_succ, xorSum_succ, ih]
    cases xorSum n f <;> cases xorSum n g <;> cases f n <;> cases g n <;> rfl

theorem xorSum_false (n : Nat) : xorSum n (fun _ => false) = false := by
  induction n with
  | zero => rfl
  | succ n ih => rw [xorSum_succ, ih]; rfl

theorem residual_xor (N : Nat) (a b : Bitset) (x : Nat → Bool) :
    residual N (Nat.xor a b) x = xor (residual N a x) (residual N b x) := by
  unfold residual
  have h : (fun j => Bitset.test (Nat.xor a b) j && x j)
      = fun j => xor (Bitset.test a j && x j) (Bitset.test b j && x j) := by
    funext j
    rw [test_xor, Bool.and_xor_distrib_right]
  rw [h, xorSum_xor, test_xor]
  cases xorSum N (fun j => Bitset.test a j && x j) <;>
    cases xorSum N (fun j => Bitset.test b j && x j) <;>
    cases Bitset.test a MAX_N <;> cases Bitset.test b MAX_N <;> rfl

theorem solves_swapRows (N : Nat) (m : Matrix) (hlen : m.length = N) {row sel : Nat}
    (hr : row < N) (hs : sel < N) (x : Nat → Bool) :
    Solves N (swapRows m row sel) x ↔ Solves N m x := by
  have hr' : row < m.length := by omega
  have hs' : sel < m.length := by omega
  constructor
  · intro h i hi
    by_cases e1 : i = sel
    · subst e1
      have := h row hr
      rw [rowAt_swapRows m hr' hs'] at this
      by_cases e : row = i
      · subst e; simpa using this
      · rw [if_neg e, if_pos rfl] at this
        exact this
    · by_cases e2 : i = row
      · subst e2
        have := h sel hs
        rw [rowAt_swapRows m hr' hs', if_pos rfl] at this
        exact this
      · have := h i hi
        rw [rowAt_swapRows m hr' hs', if_neg e1, if_neg e2] at this
        exact this
  · intro h i hi
    rw [rowAt_swapRows m hr' hs']
    by_cases e1 : i = sel
    · rw [if_pos e1]; exact h row hr
    · rw [if_neg e1]
      by_cases e2 : i = row
      · rw [if_pos e2]; exact h sel hs
      · rw [if_neg e2]; exact h i hi

theorem solves_eliminate (N : Nat) (m : Matrix) (hlen : m.length = N) {row : Nat}
    (hr : row < N) (col : Nat) (x : Nat → Bool) :
    Solves N (eliminate m N row col) x ↔ Solves N m x := by
  obtain ⟨_, hrows⟩ := eliminate_spec m N row col hlen
  have hpiv : rowAt (eliminate m N row col) row = rowAt m row := by
    rw [hrows row hr]; exact if_neg (fun h => h.1 rfl)
  constructor
  · intro h i hi
    have h1 := h i hi
    have h2 := h row hr
    rw [hpiv] at h2
    rw [hrows i hi] at h1
    by_cases hc : i ≠ row ∧ Bitset.test (rowAt m i) col = true
    · rw [if_pos hc, residual_xor, h2] at h1
      simpa using h1
    · rw [if_neg hc] at h1
      exact h1
  · intro h i hi
    rw [hrows i hi]
    by_cases hc : i ≠ row ∧ Bitset.test (rowAt m i) col = true
    · rw [if_pos hc, residual_xor, h i hi, h row hr]
      rfl
    · rw [if_neg hc]
      exact h i hi

theorem gaussStep_length (N : Nat) (s : Matrix × Nat) (col : Nat) (hlen : s.1.length = N) :
    (gaussStep N s col).1.length = N := by
  unfold gaussStep
  split
  · exact hlen
  · exact (eliminate_spec _ N s.2 col (by rw [length_swapRows]; exact hlen)).1

theorem gaussStep_solves (N : Nat) (s : Matrix × Nat) (col : Nat) (hlen : s.1.length = N)
    (x : Nat → Bool) : Solves N (gaussStep N s col).1 x ↔ Solves N s.1 x := by
  unfold gaussStep
  split
  · exact Iff.rfl
  · next sel h =>
    obtain ⟨h1, h2, _⟩ := findSel_some h
    have hr : s.2 < N := by omega
    rw [solves_eliminate N _ (by rw [length_swapRows]; exact hlen) hr col x]
    exact solves_swapRows N s.1 hlen hr h2 x

theorem gaussRun_succ (N : Nat) (m : Matrix) (col : Nat) :
    gaussRun N m (col + 1) = gaussStep N (gaussRun N m col) col := by
  unfold gaussRun
  rw [foldl_range_succ]

theorem gaussRun_length (N : Nat) (m : Matrix) (hlen : m.length = N) (col : Nat) :
    (gaussRun N m col).1.length = N := by
  induction col with
  | zero => exact hlen
  | succ col ih => rw [gaussRun_succ]; exact gaussStep_length N _ col ih

theorem gaussRun_solves (N : Nat) (m : Matrix) (hlen : m.length = N) (col : Nat)
    (x : Nat → Bool) : Solves N (gaussRun N m col).1 x ↔ Solves N m x := by
  induction col with
  | zero => exact Iff.rfl
  | succ col ih =>
    rw [gaussRun_succ, gaussStep_solves N _ col (gaussRun_length N m hlen col) x]
    exact ih

/-- C11: for every `N` and every augmented matrix of `N` rows, the Gauss elimination
loop (row swap, then XOR of the whole pivot row, right-hand-side bit included, into
every other row with a 1 in the pivot column) keeps the solution set: a vector `x` over
GF(2) satisfies the system after the loop exactly when it satisfies it before. -/
theorem gauss_preserves_solutions (N : Nat) (m : Matrix) (hlen : m.length = N)
    (x : Nat → Bool) :
    (gauss N m).1.length = N ∧ (Solves N (gauss N m).1 x ↔ Solves N m x) :=
  ⟨gaussRun_length N m hlen N, gaussRun_solves N m hlen N x⟩

theorem gauss_preserves_solutions_witness :
    [3, 1 <<< 10000 + 1].length = 2 ∧
    ((gauss 2 [3, 1 <<< 10000 + 1]).1.length = 2 ∧
      (Solves 2 (gauss 2 [3, 1 <<< 10000 + 1]).1 (fun j => decide (j = 0))
        ↔ Solves 2 [3, 1 <<< 10000 + 1] (fun j => decide (j = 0)))) :=
  ⟨rfl, gauss_preserves_solutions 2 [3, 1 <<< 10000 + 1] rfl (fun j => decide (j = 0))⟩

/-! ## The echelon shape -/

theorem echelon_congr {N col : Nat} {s : Matrix × Nat} {c c' : Nat → Nat}
    (h : Echelon N col s c) (hc : ∀ r, r < s.2 → c' r = c r) : Echelon N col s c' := by
  obtain ⟨h1, h2, h3, h4, h5, h6, h7⟩ := h
  refine ⟨h1, h2, h3, ?_, ?_, ?_, h7⟩
  · intro r hr
    rw [hc r hr]
    exact h4 r hr
  · intro r r' hrr hr'
    rw [hc r (by omega), hc r' hr']
    exact h5 r r' hrr hr'
  · intro r hr i hi hne
    rw [hc r hr]
    exact h6 r hr i hi hne

theorem echelon_skip {N col : Nat} {s : Matrix × Nat} {c : Nat → Nat}
    (h : Echelon N col s c) (hnone : findSel s.1 N s.2 col = none) :
    Echelon N (col + 1) s c := by
  obtain ⟨h1, h2, h3, h4, h5, h6, h7⟩ := h
  refine ⟨h1, by omega, h3, ?_, h5, h6, ?_⟩
  · intro r hr
    obtain ⟨a, b, d⟩ := h4 r hr
    exact ⟨by omega, b, d⟩
  · intro i hi hiN j hj
    by_cases e : j = col
    · subst e
      exact findSel_none hnone i hi hiN
    · exact h7 i hi hiN j (by omega)

theorem echelon_swap {N col : Nat} {m : Matrix} {k : Nat} {c : Nat → Nat}
    (h : Echelon N col (m, k) c) {sel : Nat} (hk : k ≤ sel) (hs : sel < N) :
    Echelon N col (swapRows m k sel, k) c ∧ rowAt (swapRows m k sel) k = rowAt m sel := by
  obtain ⟨h1, h2, h3, h4, h5, h6, h7⟩ := h
  simp only at h1 h2 h3 h4 h5 h6 h7
  have hk' : k < m.length := by omega
  have hs' : sel < m.length := by omega
  have hrow := rowAt_swapRows m hk' hs'
  have hlow : ∀ r, r < k → rowAt (swapRows m k sel) r = rowAt m r := by
    intro r hr
    rw [hrow r, if_neg (by omega), if_neg (by omega)]
  have hsrc : ∀ i, i < N → ∃ i', i' < N ∧ rowAt (swapRows m k sel) i = rowAt m i' ∧
      (k ≤ i → k ≤ i') ∧ (i < k → i' = i) := by
    intro i hi
    rw [hrow i]
    by_cases e1 : i = sel
    · exact ⟨k, by omega, by rw [if_pos e1], fun _ => Nat.le_refl k, fun h => by omega⟩
    · by_cases e2 : i = k
      · exact ⟨sel, hs, by rw [if_neg e1, if_pos e2], fun _ => hk, fun h => by omega⟩
      · exact ⟨i, hi, by rw [if_neg e1, if_neg e2], fun h => h, fun _ => rfl⟩
  have hpiv : rowAt (swapRows m k sel) k = rowAt m sel := by
    rw [hrow k]
    by_cases e : k = sel
    · rw [if_pos e, e]
    · rw [if_neg e, if_pos rfl]
  refine ⟨⟨by rw [length_swapRows]; exact h1, h2, h3, ?_, h5, ?_, ?_⟩, hpiv⟩
  · intro r hr
    simp only
    rw [hlow r hr]
    exact h4 r hr
  · intro r hr i hi hne
    simp only
    obtain ⟨i', hi', e, hge, hlt⟩ := hsrc i hi
    rw [e]
    apply h6 r hr i' hi'
    intro e'
    by_cases hik : i < k
    · have := hlt hik; omega
    · have := hge (by omega); omega
  · intro i hi hiN j hj
    simp only at hi
    simp only
    obtain ⟨i', hi', e, hge, _⟩ := hsrc i hiN
    rw [e]
    exact h7 i' (hge hi) hi' j hj

theorem echelon_eliminate {N col : Nat} {m : Matrix} {k : Nat} {c : Nat → Nat}
    (h : Echelon N col (m, k) c) (hk : k < N) (hp : Bitset.test (rowAt m k) col = true) :
    Echelon N (col + 1) (eliminate m N k col, k + 1) (fun r => if r = k then col else c r) := by
  obtain ⟨h1, h2, h3, h4, h5, h6, h7⟩ := h
  simp only at h1 h2 h3 h4 h5 h6 h7
  obtain ⟨hl, hrows⟩ := eliminate_spec m N k col h1
  have hP : ∀ j, j < col → Bitset.test (rowAt m k) j = false := h7 k (Nat.le_refl k) hk
  have hsame : ∀ i, i < N → ∀ j, j < col →
      Bitset.test (rowAt (eliminate m N k col) i) j = Bitset.test (rowAt m i) j := by
    intro i hi j hj
    rw [hrows i hi]
    split
    · rw [test_xor, hP j hj]; simp
    · rfl
  have hpivrow : rowAt (eliminate m N k col) k = rowAt m k := by
    rw [hrows k hk]; exact if_neg (fun h => h.1 rfl)
  have hcol : ∀ i, i < N → i ≠ k → Bitset.test (rowAt (eliminate m N k col) i) col = false := by
    intro i hi hne
    rw [hrows i hi]
    by_cases ht : Bitset.test (rowAt m i) col = true
    · rw [if_pos ⟨hne, ht⟩, test_xor, ht, hp]; rfl
    · rw [if_neg (fun h => ht h.2)]
      simpa using ht
  refine ⟨hl, by simp only; omega, by simp only; omega, ?_, ?_, ?_, ?_⟩
  · intro r hr
    simp only at hr ⊢
    by_cases e : r = k
    · subst e
      rw [if_pos rfl, hpivrow]
      exact ⟨by omega, hp, hP⟩
    · rw [if_neg e]
      have hr' : r < k := by omega
      obtain ⟨a, b, d⟩ := h4 r hr'
      refine ⟨by omega, ?_, ?_⟩
      · rw [hsame r (by omega) (c r) a]; exact b
      · intro j hj
        rw [hsame r (by omega) j (by omega)]; exact d j hj
  · intro r r' hrr hr'
    simp only at hr' ⊢
    by_cases e : r' = k
    · subst e
      rw [if_neg (by omega : ¬ r = r'), if_pos rfl]
      exact (h4 r hrr).1
    · rw [if_neg (by omega : ¬ r = k), if_neg e]
      exact h5 r r' hrr (by omega)
  · intro r hr i hi hne
    simp only at hr ⊢
    by_cases e : r = k
    · subst e
      rw [if_pos rfl]
      exact hcol i hi hne
    · rw [if_neg e]
      have hr' : r < k := by omega
      rw [hsame i hi (c r) (h4 r hr').1]
      exact h6 r hr' i hi hne
  · intro i hi hiN j hj
    simp only at hi ⊢
    by_cases e : j = col
    · subst e
      exact hcol i hiN (by omega)
    · rw [hsame i hiN j (by omega)]
      exact h7 i (by omega) hiN j (by omega)

theorem gaussStep_cases (N : Nat) (s : Matrix × Nat) (col : Nat) :
    (findSel s.1 N s.2 col = none ∧ gaussStep N s col = s) ∨
    (∃ sel, findSel s.1 N s.2 col = some sel ∧
      gaussStep N s col = (eliminate (swapRows s.1 s.2 sel) N s.2 col, s.2 + 1)) := by
  unfold gaussStep
  cases h : findSel s.1 N s.2 col with
  | none => exact Or.inl ⟨rfl, rfl⟩
  | some sel => exact Or.inr ⟨sel, rfl, rfl⟩

/-- One iteration of the column loop carries the echelon shape from `col` to `col + 1`;
a pivot found in column `col` becomes the pivot of the row the counter pointed at. -/
theorem echelon_step {N col : Nat} {s : Matrix × Nat} {c : Nat → Nat}
    (h : Echelon N col s c) :
    ∃ c', Echelon N (col + 1) (gaussStep N s col) c' ∧ (∀ r, r < s.2 → c' r = c r) ∧
      ((gaussStep N s col).2 = s.2 + 1 → c' s.2 = col) := by
  rcases gaussStep_cases N s col with ⟨hn, e⟩ | ⟨sel, hsome, e⟩
  · rw [e]
    exact ⟨c, echelon_skip h hn, fun _ _ => rfl, fun h' => absurd h' (by omega)⟩
  · rw [e]
    obtain ⟨h1, h2, h3⟩ := findSel_some hsome
    obtain ⟨hsw, hpiv⟩ := echelon_swap (m := s.1) (k := s.2) h h1 h2
    have hp : Bitset.test (rowAt (swapRows s.1 s.2 sel) s.2) col = true := by rw [hpiv]; exact h3
    refine ⟨fun r => if r = s.2 then col else c r,
      echelon_eliminate hsw (by omega) hp, ?_, ?_⟩
    · intro r hr
      simp only
      rw [if_neg (by omega)]
    · intro _
      simp

theorem gaussStep_counter (N : Nat) (s : Matrix × Nat) (col : Nat) :
    (gaussStep N s col).2 = s.2 ∨ (gaussStep N s col).2 = s.2 + 1 := by
  rcases gaussStep_cases N s col with ⟨_, e⟩ | ⟨sel, _, e⟩
  · exact Or.inl (by rw [e])
  · exact Or.inr (by rw [e])

theorem gaussRun_counter_mono (N : Nat) (m : Matrix) (col d : Nat) :
    (gaussRun N m col).2 ≤ (gaussRun N m (col + d)).2 := by
  induction d with
  | zero => exact Nat.le_refl _
  | succ d ih =>
    rw [← Nat.add_assoc, gaussRun_succ]
    rcases gaussStep_counter N (gaussRun N m (col + d)) (col + d) with e | e <;> omega

theorem gaussRun_counter_le (N : Nat) (m : Matrix) {col col' : Nat} (h : col ≤ col') :
    (gaussRun N m col).2 ≤ (gaussRun N m col').2 := by
  have := gaussRun_counter_mono N m col (col' - col)
  rwa [Nat.add_sub_cancel' h] at this

/-- One assignment of pivot columns serves every stage of the column loop. -/
theorem gaussRun_echelon (N : Nat) (m : Matrix) (hlen : m.length = N) (n : Nat) :
    ∃ c : Nat → Nat,
      (∀ col, col ≤ n → Echelon N col (gaussRun N m col) c) ∧
      (∀ col, col < n → (gaussRun N m (col + 1)).2 = (gaussRun N m col).2 + 1 →
        c (gaussRun N m col).2 = col) := by
  induction n with
  | zero =>
    refine ⟨fun _ => 0, ?_, ?_⟩
    · intro col hcol
      have e : col = 0 := by omega
      subst e
      refine ⟨hlen, Nat.le_refl 0, Nat.zero_le N, ?_, ?_, ?_, ?_⟩
      · intro r hr; exact absurd hr (Nat.not_lt_zero r)
      · intro r r' _ hr'; exact absurd hr' (Nat.not_lt_zero r')
      · intro r hr; exact absurd hr (Nat.not_lt_zero r)
      · intro i _ _ j hj; exact absurd hj (Nat.not_lt_zero j)
    · intro col hcol; exact absurd hcol (Nat.not_lt_zero col)
  | succ n ih =>
    obtain ⟨c, hE, hT⟩ := ih
    obtain ⟨c', hE', hag, htr⟩ := echelon_step (hE n (Nat.le_refl n))
    rw [← gaussRun_succ] at hE' htr
    refine ⟨c', ?_, ?_⟩
    · intro col hcol
      by_cases e : col = n + 1
      · subst e; exact hE'
      · have hle : col ≤ n := by omega
        apply echelon_congr (hE col hle)
        intro r hr
        exact hag r (Nat.lt_of_lt_of_le hr (gaussRun_counter_le N m hle))
    · intro col hcol hadv
      by_cases e : col = n
      · subst e; exact htr hadv
      · have hlt : col < n := by omega
        have hk : (gaussRun N m (col + 1)).2 ≤ (gaussRun N m n).2 :=
          gaussRun_counter_le N m (by omega)
        rw [hag _ (by omega)]
        exact hT col hlt hadv

theorem gaussRun_skip {N : Nat} {m : Matrix} {col : Nat}
    (h : ∀ i, (gaussRun N m col).2 ≤ i → i < N →
      Bitset.test (rowAt (gaussRun N m col).1 i) col = false) :
    gaussRun N m (col + 1) = gaussRun N m col := by
  rw [gaussRun_succ]
  rcases gaussStep_cases N (gaussRun N m col) col with ⟨_, e⟩ | ⟨sel, hsome, _⟩
  · exact e
  · obtain ⟨h1, h2, h3⟩ := findSel_some hsome
    rw [h sel h1 h2] at h3
    exact absurd h3 (by decide)

theorem gaussRun_advance {N : Nat} {m : Matrix} {col i : Nat}
    (hi : (gaussRun N m col).2 ≤ i) (hiN : i < N)
    (h : Bitset.test (rowAt (gaussRun N m col).1 i) col = true) :
    (gaussRun N m (col + 1)).2 = (gaussRun N m col).2 + 1 := by
  rw [gaussRun_succ]
  rcases gaussStep_cases N (gaussRun N m col) col with ⟨hn, _⟩ | ⟨sel, _, e⟩
  · rw [findSel_none hn i hi hiN] at h
    exact absurd h (by decide)
  · rw [e]

/-- A column that was skipped is the pivot column of no row, at any later stage. -/
theorem skipped_not_pivot {N : Nat} {m : Matrix} {c : Nat → Nat} {n : Nat}
    (hE : ∀ col, col ≤ n → Echelon N col (gaussRun N m col) c)
    (hT : ∀ col, col < n → (gaussRun N m (col + 1)).2 = (gaussRun N m col).2 + 1 →
      c (gaussRun N m col).2 = col)
    {col : Nat} (hskip : gaussRun N m (col + 1) = gaussRun N m col) (d : Nat)
    (hd : col + 1 + d ≤ n) :
    ∀ r, r < (gaussRun N m (col + 1 + d)).2 → c r ≠ col := by
  induction d with
  | zero =>
    intro r hr
    rw [Nat.add_zero, hskip] at hr
    have := ((hE col (by omega)).2.2.2.1 r hr).1
    omega
  | succ d ih =>
    intro r hr
    have ih' := ih (by omega)
    rw [← Nat.add_assoc] at hr
    rcases gaussStep_counter N (gaussRun N m (col + 1 + d)) (col + 1 + d) with e | e
    · rw [← gaussRun_succ] at e
      exact ih' r (by omega)
    · rw [← gaussRun_succ] at e
      by_cases hlt : r < (gaussRun N m (col + 1 + d)).2
      · exact ih' r hlt
      · have hr' : r = (gaussRun N m (col + 1 + d)).2 := by omega
        have := hT (col + 1 + d) (by omega) e
        rw [← hr'] at this
        omega

theorem leadCol_eq_some {N : Nat} {r : Bitset} {c : Nat} (hc : c < N)
    (h1 : Bitset.test r c = true) (h2 : ∀ j, j < c → Bitset.test r j = false) :
    leadCol N r = some c := by
  unfold leadCol
  rw [List.find?_range_eq_some]
  refine ⟨h1, List.mem_range.mpr hc, ?_⟩
  intro j hj
  rw [h2 j hj]
  rfl

theorem leadCol_some {N : Nat} {r : Bitset} {c : Nat} (h : leadCol N r = some c) :
    c < N ∧ Bitset.test r c = true ∧ ∀ j, j < c → Bitset.test r j = false := by
  unfold leadCol at h
  rw [List.find?_range_eq_some] at h
  obtain ⟨h1, h2, h3⟩ := h
  refine ⟨List.mem_range.mp h2, h1, ?_⟩
  intro j hj
  have := h3 j hj
  simpa using this

/-- C12: for every `N` and every augmented matrix of `N` rows, after the elimination loop
with `k` the final value of the pivot-row counter, there are pivot columns
`c 0 < c 1 < … < c (k-1)` below `N` such that every row `r < k` has its leftmost 1 among
the coefficient columns at `c r`, the column `c r` holds a 1 in row `r` only, and every row
`r ≥ k` has all `N` coefficient bits 0. A column in which no row at or below the current
pivot row has a 1 leaves matrix and counter as they are and is the pivot column of no
row; a column in which such a row has a 1 advances the counter by one and becomes the
pivot column of the row the counter pointed at. -/
theorem gauss_reduced_echelon (N : Nat) (m : Matrix) (hlen : m.length = N) :
    (gauss N m).2 ≤ N ∧
    ∃ c : Nat → Nat,
      (∀ r, r < (gauss N m).2 →
        c r < N ∧ leadCol N (rowAt (gauss N m).1 r) = some (c r)) ∧
      (∀ r r', r < r' → r' < (gauss N m).2 → c r < c r') ∧
      (∀ r, r < (gauss N m).2 → ∀ i, i < N → i ≠ r →
        Bitset.test (rowAt (gauss N m).1 i) (c r) = false) ∧
      (∀ i, (gauss N m).2 ≤ i → i < N → ∀ j, j < N →
        Bitset.test (rowAt (gauss N m).1 i) j = false) ∧
      (∀ col, col < N →
        (∀ i, (gaussRun N m col).2 ≤ i → i < N →
          Bitset.test (rowAt (gaussRun N m col).1 i) col = false) →
        gaussRun N m (col + 1) = gaussRun N m col ∧
        ∀ r, r < (gauss N m).2 → c r ≠ col) ∧
      (∀ col, col < N →
        (∃ i, (gaussRun N m col).2 ≤ i ∧ i < N ∧
          Bitset.test (rowAt (gaussRun N m col).1 i) col = true) →
        (gaussRun N m (col + 1)).2 = (gaussRun N m col).2 + 1 ∧
        c (gaussRun N m col).2 = col) := by
  obtain ⟨c, hE, hT⟩ := gaussRun_echelon N m hlen N
  obtain ⟨_, _, h3, h4, h5, h6, h7⟩ := hE N (Nat.le_refl N)
  refine ⟨h3, c, ?_, h5, h6, h7, ?_, ?_⟩
  · intro r hr
    obtain ⟨a, b, d⟩ := h4 r hr
    exact ⟨a, leadCol_eq_some a b d⟩
  · intro col hcol hzero
    have hskip := gaussRun_skip hzero
    refine ⟨hskip, ?_⟩
    intro r hr
    have := skipped_not_pivot hE hT hskip (N - (col + 1)) (by omega)
    rw [Nat.add_sub_cancel' (by omega : col + 1 ≤ N)] at this
    exact this r hr
  · rintro col hcol ⟨i, hi, hiN, ht⟩
    have hadv := gaussRun_advance hi hiN ht
    exact ⟨hadv, hT col hcol hadv⟩

theorem gauss_reduced_echelon_witness :
    [0, 3, 1 <<< 10000 + 2].length = 3 ∧
    ((gauss 3 [0, 3, 1 <<< 10000 + 2]).2 ≤ 3 ∧
    ∃ c : Nat → Nat,
      (∀ r, r < (gauss 3 [0, 3, 1 <<< 10000 + 2]).2 →
        c r < 3 ∧ leadCol 3 (rowAt (gauss 3 [0, 3, 1 <<< 10000 + 2]).1 r) = some (c r)) ∧
      (∀ r r', r < r' → r' < (gauss 3 [0, 3, 1 <<< 10000 + 2]).2 → c r < c r') ∧
      (∀ r, r < (gauss 3 [0, 3, 1 <<< 10000 + 2]).2 → ∀ i, i < 3 → i ≠ r →
        Bitset.test (rowAt (gauss 3 [0, 3, 1 <<< 10000 + 2]).1 i) (c r) = false) ∧
      (∀ i, (gauss 3 [0, 3, 1 <<< 10000 + 2]).2 ≤ i → i < 3 → ∀ j, j < 3 →
        Bitset.test (rowAt (gauss 3 [0, 3, 1 <<< 10000 + 2]).1 i) j = false) ∧
      (∀ col, col < 3 →
        (∀ i, (gaussRun 3 [0, 3, 1 <<< 10000 + 2] col).2 ≤ i → i < 3 →
          Bitset.test (rowAt (gaussRun 3 [0, 3, 1 <<< 10000 + 2] col).1 i) col = false) →
        gaussRun 3 [0, 3, 1 <<< 10000 + 2] (col + 1) = gaussRun 3 [0, 3, 1 <<< 10000 + 2] col ∧
        ∀ r, r < (gauss 3 [0, 3, 1 <<< 10000 + 2]).2 → c r ≠ col) ∧
      (∀ col, col < 3 →
        (∃ i, (gaussRun 3 [0, 3, 1 <<< 10000 + 2] col).2 ≤ i ∧ i < 3 ∧
          Bitset.test (rowAt (gaussRun 3 [0, 3, 1 <<< 10000 + 2] col).1 i) col = true) →
        (gaussRun 3 [0, 3, 1 <<< 10000 + 2] (col + 1)).2
          = (gaussRun 3 [0, 3, 1 <<< 10000 + 2] col).2 + 1 ∧
        c (gaussRun 3 [0, 3, 1 <<< 10000 + 2] col).2 = col)) :=
  ⟨rfl, gauss_reduced_echelon 3 [0, 3, 1 <<< 10000 + 2] rfl⟩

/-! ## Solvability for reachable grids -/

theorem xorSum_single (n : Nat) (f : Nat → Bool) (a : Nat) :
    xorSum n (fun j => f j && decide (j = a)) = (decide (a < n) && f a) := by
  induction n with
  | zero => simp [xorSum]
  | succ n ih =>
    rw [xorSum_succ, ih]
    by_cases h1 : n = a
    · subst h1; simp
    · by_cases h2 : a < n
      · have : a < n + 1 := by omega
        simp [h1, h2, this]
      · have : ¬ a < n + 1 := by omega
        simp [h1, h2, this]

theorem pressAt_set (p : List Bool) (i j : Nat) (v : Bool) :
    pressAt (p.set i v) j = if i = j ∧ i < p.length then v else pressAt p j := by
  unfold pressAt
  exact getD_set_eq_ite p i j v false

theorem pressAt_map_range (N : Nat) (f : Nat → Bool) (j : Nat) :
    pressAt ((List.range N).map f) j = if j < N then f j else false := by
  unfold pressAt
  rw [List.getD_eq_getElem?_getD]
  by_cases h : j < N
  · rw [if_pos h, List.getElem?_map, List.getElem?_range h]; rfl
  · rw [if_neg h, List.getElem?_eq_none (by simpa using h)]; rfl

theorem buildRow_rhs (Y X : Nat) (st : Grid) (row col : Nat) (b : Bitset) :
    Bitset.test (buildRow Y X st row col b) MAX_N = cell st row col := by
  unfold buildRow
  simp only []
  rw [test_assign, if_pos rfl]

theorem getD_replicate_ite {α : Type} (n i : Nat) (a d : α) :
    (List.replicate n a).getD i d = if i < n then a else d := by
  rw [List.getD_eq_getElem?_getD, List.getElem?_replicate]
  split <;> rfl

theorem wellFormed_blank (Y X : Nat) : WellFormed Y X (SecureBox.blank Y X).box := by
  refine ⟨by simp [SecureBox.blank], ?_⟩
  intro i hi
  simp only [SecureBox.blank]
  rw [getD_replicate_ite, if_pos hi]
  simp

theorem cell_blank (Y X r c : Nat) : cell (SecureBox.blank Y X).box r c = false := by
  simp only [SecureBox.blank, cell]
  rw [getD_replicate_ite]
  split
  · rw [getD_replicate_ite]
    split <;> rfl
  · rfl

/-- Every grid obtained by in-range toggles is the image of some press vector under
the row-or-column incidence map. -/
theorem toggles_in_image (Y X : Nat) (ps : List (Nat × Nat)) :
    ∀ b : SecureBox, b.ySize = Y → b.xSize = X → WellFormed Y X b.box →
      (∀ p ∈ ps, p.1 < Y ∧ p.2 < X) →
      (∃ x : List Bool, x.length = Y * X ∧ ∀ r c, r < Y → c < X →
        cell b.box r c
          = xorSum (Y * X) fun j => decide (r = j / X ∨ c = j % X) && pressAt x j) →
      WellFormed Y X (b.toggles ps).box ∧
      ∃ x : List Bool, x.length = Y * X ∧ ∀ r c, r < Y → c < X →
        cell (b.toggles ps).box r c
          = xorSum (Y * X) fun j => decide (r = j / X ∨ c = j % X) && pressAt x j := by
  induction ps with
  | nil => intro b _ _ hw _ hx; exact ⟨hw, hx⟩
  | cons p ps ih =>
    intro b hY hX hw hin hx
    subst hY; subst hX
    have hp := hin p (List.mem_cons_self _ _)
    obtain ⟨t1, t2, t3, t4⟩ := toggle_spec b hw hp.1 hp.2
    apply ih (b.toggle p.1 p.2) t1 t2 t3 (fun q hq => hin q (List.mem_cons_of_mem _ hq))
    obtain ⟨x, hxl, hxc⟩ := hx
    have hidx : p.1 * b.xSize + p.2 < b.ySize * b.xSize := idx_lt hp.1 hp.2
    refine ⟨x.set (p.1 * b.xSize + p.2) (!pressAt x (p.1 * b.xSize + p.2)),
      by rw [List.length_set]; exact hxl, ?_⟩
    intro r c hr hc
    rw [t4 r c hr hc, hxc r c hr hc]
    have hfun : (fun j => decide (r = j / b.xSize ∨ c = j % b.xSize) &&
          pressAt (x.set (p.1 * b.xSize + p.2) (!pressAt x (p.1 * b.xSize + p.2))) j)
        = fun j => xor (decide (r = j / b.xSize ∨ c = j % b.xSize) && pressAt x j)
            (decide (r = j / b.xSize ∨ c = j % b.xSize) &&
              decide (j = p.1 * b.xSize + p.2)) := by
      funext j
      rw [pressAt_set]
      by_cases e : p.1 * b.xSize + p.2 = j
      · subst e
        rw [if_pos ⟨rfl, by rw [hxl]; exact hidx⟩]
        cases pressAt x (p.1 * b.xSize + p.2) <;>
          cases decide (r = (p.1 * b.xSize + p.2) / b.xSize ∨
            c = (p.1 * b.xSize + p.2) % b.xSize) <;> simp
      · rw [if_neg (fun h => e h.1)]
        have : ¬ j = p.1 * b.xSize + p.2 := fun h => e h.symm
        simp [this]
    rw [hfun, xorSum_xor, xorSum_single, idx_div p.1 hp.2, idx_mod p.1 hp.2]
    simp [hidx]

theorem reachable_in_image {Y X : Nat} {st : Grid} (h : Reachable Y X st) :
    WellFormed Y X st ∧
    ∃ x : List Bool, x.length = Y * X ∧ ∀ r c, r < Y → c < X →
      cell st r c = xorSum (Y * X) fun j => decide (r = j / X ∨ c = j % X) && pressAt x j := by
  obtain ⟨ps, hin, e⟩ := h
  rw [e]
  apply toggles_in_image Y X ps (SecureBox.blank Y X) rfl rfl (wellFormed_blank Y X) hin
  refine ⟨List.replicate (Y * X) false, by simp, ?_⟩
  intro r c _ _
  rw [cell_blank]
  have : (fun j => decide (r = j / X ∨ c = j % X) && pressAt (List.replicate (Y * X) false) j)
      = fun _ => false := by
    funext j
    have : pressAt (List.replicate (Y * X) false) j = false := by
      unfold pressAt
      rw [getD_replicate_ite]
      split <;> rfl
    rw [this]; simp
  rw [this, xorSum_false]

theorem coef_eq (Y X : Nat) (st : Grid) (hN : Y * X ≤ MAX_N) {i j : Nat}
    (hi : i < Y * X) (hj : j < Y * X) :
    coef Y X st i j = decide (i / X = j / X ∨ i % X = j % X) := by
  have hX : 0 < X := by
    rcases Nat.eq_zero_or_pos X with e | e
    · rw [e] at hi; simp at hi
    · exact e
  obtain ⟨_, hrows⟩ := buildMatrix_rows Y X st
  obtain ⟨hb, _⟩ := buildRow_test Y X st (div_lt_of_lt_mul' hi) (Nat.mod_lt i hX) hN
  unfold coef
  rw [hrows i hi, hb j hj]
  congr 1
  apply propext
  constructor
  · rintro (h | h)
    · exact Or.inl h.symm
    · exact Or.inr h.symm
  · rintro (h | h)
    · exact Or.inl h.symm
    · exact Or.inr h.symm

theorem rhs_eq (Y X : Nat) (st : Grid) {i : Nat} (hi : i < Y * X) :
    Bitset.test (rowAt (buildMatrix Y X st) i) MAX_N = cell st (i / X) (i % X) := by
  obtain ⟨_, hrows⟩ := buildMatrix_rows Y X st
  rw [hrows i hi, buildRow_rhs]

/-- C14: for `ySize, xSize ≥ 1` and every grid reachable from the all-false grid by
finitely many in-range toggles, the linear system of the builder is solvable: some press
vector `x` of length `N` satisfies `A * x = state` over GF(2), `A` being the builder's
coefficient matrix. -/
theorem reachable_system_solvable (ySize xSize : Nat) (st : Grid)
    (_hy : 1 ≤ ySize) (_hx : 1 ≤ xSize) (h : Reachable ySize xSize st) :
    ∃ x : List Bool, x.length = ySize * xSize ∧
      ∀ i, i < ySize * xSize →
        mulVec ySize xSize st x i = cell st (i / xSize) (i % xSize) := by
  by_cases hN : ySize * xSize ≤ MAX_N
  · obtain ⟨_, x, hxl, hxc⟩ := reachable_in_image h
    refine ⟨x, hxl, ?_⟩
    intro i hi
    have hX : 0 < xSize := by
      rcases Nat.eq_zero_or_pos xSize with e | e
      · rw [e] at hi; simp at hi
      · exact e
    rw [hxc (i / xSize) (i % xSize) (div_lt_of_lt_mul' hi) (Nat.mod_lt i hX)]
    unfold mulVec
    apply xorSum_congr
    intro j hj
    rw [coef_eq ySize xSize st hN hi hj]
  · refine ⟨(List.range (ySize * xSize)).map fun j => decide (j = MAX_N), by simp, ?_⟩
    intro i hi
    unfold mulVec
    have e : xorSum (ySize * xSize) (fun j => coef ySize xSize st i j &&
          pressAt ((List.range (ySize * xSize)).map fun j => decide (j = MAX_N)) j)
        = xorSum (ySize * xSize) (fun j => coef ySize xSize st i j && decide (j = MAX_N)) := by
      apply xorSum_congr
      intro j hj
      rw [pressAt_map_range, if_pos hj]
    rw [e, xorSum_single]
    have : MAX_N < ySize * xSize := by omega
    simp only [this, decide_True, Bool.true_and]
    exact rhs_eq ySize xSize st hi

theorem reachable_system_solvable_witness :
    (1 ≤ 2 ∧ 1 ≤ 2 ∧ Reachable 2 2 [[true, true], [true, false]]) ∧
    ∃ x : List Bool, x.length = 2 * 2 ∧
      ∀ i, i < 2 * 2 →
        mulVec 2 2 [[true, true], [true, false]] x i
          = cell [[true, true], [true, false]] (i / 2) (i % 2) :=
  ⟨⟨by decide, by decide, ⟨[(0, 0)], by decide, by decide⟩⟩,
    reachable_system_solvable 2 2 [[true, true], [true, false]] (by decide) (by decide)
      ⟨[(0, 0)], by decide, by decide⟩⟩

/-! ## Reading the press vector -/

theorem pressAt_extractPress (N : Nat) (m : Matrix) (j : Nat) :
    pressAt (extractPress N m) j = if j < N then Bitset.test (rowAt m j) MAX_N else false := by
  unfold extractPress
  exact pressAt_map_range N (fun i => Bitset.test (rowAt m i) MAX_N) j

/-- When the pivot of every pivot row `r < k` sits in column `r` and the rows from `k` on
have no coefficient, the right-hand sides, read row by row, solve a consistent system. -/
theorem press_solves_of_diagonal (N : Nat) (R : Matrix) (k : Nat)
    (ha : ∀ r, r < k → r < N → Bitset.test (rowAt R r) r = true)
    (hb : ∀ r, r < k → ∀ i, i < N → i ≠ r → Bitset.test (rowAt R i) r = false)
    (hc : ∀ i, k ≤ i → i < N → ∀ j, j < N → Bitset.test (rowAt R i) j = false)
    (hcons : ∃ x, Solves N R x) :
    Solves N R (pressAt (extractPress N R)) := by
  obtain ⟨x, hx⟩ := hcons
  have hzero : ∀ i, k ≤ i → i < N → Bitset.test (rowAt R i) MAX_N = false := by
    intro i hi hiN
    have h := hx i hiN
    unfold residual at h
    have e : xorSum N (fun j => Bitset.test (rowAt R i) j && x j) = xorSum N (fun _ => false) := by
      apply xorSum_congr
      intro j hj
      rw [hc i hi hiN j hj]; rfl
    rw [e, xorSum_false] at h
    simpa using h
  intro i hiN
  unfold residual
  by_cases hi : k ≤ i
  · have e : xorSum N (fun j => Bitset.test (rowAt R i) j && pressAt (extractPress N R) j)
        = xorSum N (fun _ => false) := by
      apply xorSum_congr
      intro j hj
      rw [hc i hi hiN j hj]; rfl
    rw [e, xorSum_false, hzero i hi hiN]; rfl
  · have hik : i < k := by omega
    have e : xorSum N (fun j => Bitset.test (rowAt R i) j && pressAt (extractPress N R) j)
        = xorSum N (fun j => pressAt (extractPress N R) j && decide (j = i)) := by
      apply xorSum_congr
      intro j hj
      by_cases hjk : j < k
      · by_cases e : j = i
        · subst e
          rw [ha j hjk hj]; simp
        · rw [hb j hjk i hiN (fun h => e h.symm)]; simp [e]
      · rw [pressAt_extractPress, if_pos hj, hzero j (by omega) hj]; simp
    rw [e, xorSum_single, pressAt_extractPress, if_pos hiN]
    simp [hiN]

theorem echelon_diagonal {N col : Nat} {s : Matrix × Nat} {c : Nat → Nat}
    (h : Echelon N col s c) (hid : ∀ r, r < s.2 → c r = r) :
    (∀ r, r < s.2 → r < N → Bitset.test (rowAt s.1 r) r = true) ∧
    (∀ r, r < s.2 → ∀ i, i < N → i ≠ r → Bitset.test (rowAt s.1 i) r = false) := by
  obtain ⟨_, _, _, h4, _, h6, _⟩ := h
  constructor
  · intro r hr _
    have := (h4 r hr).2.1
    rwa [hid r hr] at this
  · intro r hr i hi hne
    have := h6 r hr i hi hne
    rwa [hid r hr] at this

/-- C17: for every `N` and every augmented matrix of `N` rows whose system is consistent,
if in the reduced matrix the pivot (leftmost 1) of every pivot row `r < k` is in column
`r` — the loop never found a pivot after having skipped a column — then the extracted
vector `press[i] = reduced right-hand side of row i` solves the original system. -/
theorem press_solves_when_pivots_on_diagonal (N : Nat) (m : Matrix) (hlen : m.length = N)
    (hcons : ∃ x, Solves N m x)
    (hdiag : ∀ r, r < (gauss N m).2 → leadCol N (rowAt (gauss N m).1 r) = some r) :
    Solves N m (pressAt (extractPress N (gauss N m).1)) := by
  obtain ⟨c, hE, _⟩ := gaussRun_echelon N m hlen N
  have hEN := hE N (Nat.le_refl N)
  have hid : ∀ r, r < (gaussRun N m N).2 → c r = r := by
    intro r hr
    obtain ⟨a, b, d⟩ := hEN.2.2.2.1 r hr
    have h1 := leadCol_eq_some a b d
    have h2 := hdiag r hr
    have : some (c r) = some r := h1.symm.trans h2
    exact Option.some.inj this
  obtain ⟨ha, hb⟩ := echelon_diagonal hEN hid
  have hc := hEN.2.2.2.2.2.2
  obtain ⟨x, hx⟩ := hcons
  have hsol := press_solves_of_diagonal N (gaussRun N m N).1 (gaussRun N m N).2 ha hb hc
    ⟨x, (gaussRun_solves N m hlen N x).mpr hx⟩
  exact (gaussRun_solves N m hlen N _).mp hsol

theorem press_solves_when_pivots_on_diagonal_witness :
    ([3, 1 <<< 10000 + 1].length = 2 ∧
      (∃ x, Solves 2 [3, 1 <<< 10000 + 1] x) ∧
      ∀ r, r < (gauss 2 [3, 1 <<< 10000 + 1]).2 →
        leadCol 2 (rowAt (gauss 2 [3, 1 <<< 10000 + 1]).1 r) = some r) ∧
    Solves 2 [3, 1 <<< 10000 + 1] (pressAt (extractPress 2 (gauss 2 [3, 1 <<< 10000 + 1]).1)) :=
  ⟨⟨rfl, ⟨fun _ => true, by decide⟩, by decide⟩,
    press_solves_when_pivots_on_diagonal 2 [3, 1 <<< 10000 + 1] rfl
      ⟨fun _ => true, by decide⟩ (by decide)⟩

/-- C13 (failing input): on the `4 × 3` grid left by `toggle(2, 0)`, the reduced matrix has
9 pivot rows; row 5 has its pivot in column 6 and right-hand side 1, yet `press[6]` is
0, the right-hand side of row 6 (whose pivot is column 7): `press[i]` is read from
row `i`, not from the row whose pivot is column `i`. -/
theorem press_not_read_at_pivot_4x3 :
    (gauss 12 (buildMatrix 4 3 [[true, false, false], [true, false, false], [true, true, true],
      [true, false, false]])).2 = 9 ∧
    leadCol 12 (rowAt (gauss 12 (buildMatrix 4 3 [[true, false, false], [true, false, false],
      [true, true, true], [true, false, false]])).1 5) = some 6 ∧
    Bitset.test (rowAt (gauss 12 (buildMatrix 4 3 [[true, false, false], [true, false, false],
      [true, true, true], [true, false, false]])).1 5) MAX_N = true ∧
    leadCol 12 (rowAt (gauss 12 (buildMatrix 4 3 [[true, false, false], [true, false, false],
      [true, true, true], [true, false, false]])).1 6) = some 7 ∧
    Bitset.test (rowAt (gauss 12 (buildMatrix 4 3 [[true, false, false], [true, false, false],
      [true, true, true], [true, false, false]])).1 6) MAX_N = false ∧
    pressAt (computePress 4 3 [[true, false, false], [true, false, false], [true, true, true],
      [true, false, false]]) 6 = false := by
  refine ⟨?_, ?_, ?_, ?_, ?_, ?_⟩ <;> decide

/-! ## Systems with exactly one solution -/

theorem strictMono_below_eq_id {k : Nat} {c : Nat → Nat} (hlt : ∀ r, r < k → c r < k)
    (hmono : ∀ r r', r < r' → r' < k → c r < c r') : ∀ r, r < k → c r = r := by
  have hge : ∀ r, r < k → r ≤ c r := by
    intro r
    induction r with
    | zero => intro _; exact Nat.zero_le _
    | succ r ih =>
      intro hr
      have h1 := ih (by omega)
      have h2 := hmono r (r + 1) (by omega) hr
      omega
  have hle : ∀ d r, r + d + 1 = k → c r ≤ r := by
    intro d
    induction d with
    | zero =>
      intro r hr
      have := hlt r (by omega)
      omega
    | succ d ih =>
      intro r hr
      have h1 := ih (r + 1) (by omega)
      have h2 := hmono r (r + 1) (by omega) (by omega)
      omega
  intro r hr
  have h1 := hge r hr
  have h2 := hle (k - r - 1) r (by omega)
  omega

theorem residual_add (N : Nat) (r : Bitset) (x v : Nat → Bool)
    (hv : xorSum N (fun j => Bitset.test r j && v j) = false) :
    residual N r (fun j => xor (x j) (v j)) = residual N r x := by
  unfold residual
  have e : (fun j => Bitset.test r j && xor (x j) (v j))
      = fun j => xor (Bitset.test r j && x j) (Bitset.test r j && v j) := by
    funext j
    rw [Bool.and_xor_distrib_left]
  rw [e, xorSum_xor, hv]
  simp

/-- While the counter has kept up with the columns, a column without pivot yields a
second solution; so a system with exactly one solution gets a pivot in every column. -/
theorem gaussRun_full_rank (N : Nat) (m : Matrix) (hlen : m.length = N) (x0 : Nat → Bool)
    (hsol : Solves N m x0) (huniq : ∀ x, Solves N m x → ∀ j, j < N → x j = x0 j) :
    ∀ col, col ≤ N → (gaussRun N m col).2 = col := by
  intro col
  induction col with
  | zero => intro _; rfl
  | succ col ih =>
    intro hcol
    have hk := ih (by omega)
    rcases gaussStep_counter N (gaussRun N m col) col with e | e
    · exfalso
      rw [← gaussRun_succ] at e
      obtain ⟨c, hE, _⟩ := gaussRun_echelon N m hlen (col + 1)
      have hEc := hE col (by omega)
      have hEc1 := hE (col + 1) (Nat.le_refl _)
      have hid : ∀ r, r < (gaussRun N m col).2 → c r = r := by
        apply strictMono_below_eq_id
        · intro r hr
          have := (hEc.2.2.2.1 r hr).1
          omega
        · exact hEc.2.2.2.2.1
      obtain ⟨ha, hb⟩ := echelon_diagonal hEc hid
      rw [hk] at ha hb
      have hz : ∀ i, col ≤ i → i < N →
          Bitset.test (rowAt (gaussRun N m col).1 i) col = false := by
        intro i hi hiN
        have h7 := hEc1.2.2.2.2.2.2 i (by rw [e, hk]; exact hi) hiN col (by omega)
        rw [gaussRun_succ] at h7
        rcases gaussStep_cases N (gaussRun N m col) col with ⟨_, e'⟩ | ⟨sel, _, e'⟩
        · rw [e'] at h7; exact h7
        · rw [gaussRun_succ, e'] at e
          simp only at e
          omega
      have hker : ∀ i, i < N →
          xorSum N (fun j => Bitset.test (rowAt (gaussRun N m col).1 i) j &&
            (if j < col then Bitset.test (rowAt (gaussRun N m col).1 j) col
              else decide (j = col))) = false := by
        intro i hiN
        have e1 : xorSum N (fun j => Bitset.test (rowAt (gaussRun N m col).1 i) j &&
            (if j < col then Bitset.test (rowAt (gaussRun N m col).1 j) col
              else decide (j = col)))
            = xorSum N (fun j =>
                xor ((decide (i < col) && Bitset.test (rowAt (gaussRun N m col).1 i) col)
                      && decide (j = i))
                    (Bitset.test (rowAt (gaussRun N m col).1 i) col && decide (j = col))) := by
          apply xorSum_congr
          intro j hj
          by_cases hjc : j < col
          · rw [if_pos hjc]
            have hne : ¬ j = col := by omega
            by_cases hji : j = i
            · subst hji
              rw [ha j hjc hj]
              simp [hjc, hne]
            · rw [hb j hjc i hiN (fun h => hji h.symm)]
              simp [hji, hne]
          · rw [if_neg hjc]
            by_cases hje : j = col
            · subst hje
              have : ¬ i < j ∨ ¬ j = i := by omega
              rcases this with h | h <;> simp [h]
            · have : ¬ (i < col ∧ j = i) := by omega
              by_cases hic : i < col
              · have hji : ¬ j = i := fun h => this ⟨hic, h⟩
                simp [hje, hji]
              · simp [hje, hic]
        rw [e1, xorSum_xor, xorSum_single, xorSum_single]
        by_cases hic : i < col
        · simp [hic, hiN, (by omega : col < N)]
        · rw [hz i (by omega) hiN]
          simp
      have hsol' : Solves N (gaussRun N m col).1 x0 := (gaussRun_solves N m hlen col x0).mpr hsol
      have hsol2 : Solves N (gaussRun N m col).1 (fun j => xor (x0 j)
          (if j < col then Bitset.test (rowAt (gaussRun N m col).1 j) col
            else decide (j = col))) := by
        intro i hiN
        rw [residual_add N _ x0 _ (hker i hiN)]
        exact hsol' i hiN
      have := huniq _ ((gaussRun_solves N m hlen col _).mp hsol2) col (by omega)
      simp at this
    · rw [gaussRun_succ, e, hk]

/-! ## The incidence matrix for even dimensions -/

theorem and_xorSum (n : Nat) (a : Bool) (f : Nat → Bool) :
    (a && xorSum n f) = xorSum n (fun j => a && f j) := by
  induction n with
  | zero => simp [xorSum]
  | succ n ih => rw [xorSum_succ, xorSum_succ, Bool.and_xor_distrib_left, ih]

theorem xorSum_and (n : Nat) (f : Nat → Bool) (a : Bool) :
    xorSum n (fun j => f j && a) = (xorSum n f && a) := by
  induction n with
  | zero => simp [xorSum]
  | succ n ih => rw [xorSum_succ, xorSum_succ, Bool.and_xor_distrib_right, ih]

theorem xorSum_swap (n k : Nat) (F : Nat → Nat → Bool) :
    xorSum n (fun j => xorSum k fun l => F j l) = xorSum k (fun l => xorSum n fun j => F j l) := by
  induction n with
  | zero =>
    have : (fun l => xorSum 0 fun j => F j l) = fun _ => false := by funext l; rfl
    rw [this, xorSum_false]; rfl
  | succ n ih =>
    have : (fun l => xorSum (n + 1) fun j => F j l)
        = fun l => xor (xorSum n fun j => F j l) (F n l) := by
      funext l; rw [xorSum_succ]
    rw [xorSum_succ, ih, this, xorSum_xor]

theorem xorSum_true (n : Nat) : xorSum n (fun _ => true) = decide (n % 2 = 1) := by
  induction n with
  | zero => rfl
  | succ n ih =>
    rw [xorSum_succ, ih]
    by_cases h : n % 2 = 1
    · have : ¬ (n + 1) % 2 = 1 := by omega
      simp [h, this]
    · have : (n + 1) % 2 = 1 := by omega
      simp [h, this]

theorem xorSum_const (n : Nat) (b : Bool) : xorSum n (fun _ => b) = (decide (n % 2 = 1) && b) := by
  cases b
  · rw [xorSum_false]; simp
  · rw [xorSum_true]; simp

theorem xorSum_indicator (n a : Nat) (ha : a < n) : xorSum n (fun j => decide (j = a)) = true := by
  have := xorSum_single n (fun _ => true) a
  simp only [Bool.true_and] at this
  rw [this]
  simp [ha]

/-- The sum over one grid row `r` of the products `A[i][(r, c)] · A[(r, c)][k]`. -/
theorem incidence_row_sum {X : Nat} (hX : X % 2 = 0) {ri ci rk ck : Nat}
    (hci : ci < X) (hck : ck < X) (r : Nat) :
    xorSum X (fun c => decide (ri = r ∨ ci = c) && decide (r = rk ∨ c = ck))
      = if r = ri then (if r = rk then false else true)
        else (if r = rk then true else decide (ci = ck)) := by
  by_cases h1 : r = ri
  · by_cases h2 : r = rk
    · rw [if_pos h1, if_pos h2]
      have : (fun c => decide (ri = r ∨ ci = c) && decide (r = rk ∨ c = ck)) = fun _ => true := by
        funext c; simp [h1.symm, h2]
      rw [this, xorSum_true]
      simp [hX]
    · rw [if_pos h1, if_neg h2]
      have : (fun c => decide (ri = r ∨ ci = c) && decide (r = rk ∨ c = ck))
          = fun c => decide (c = ck) := by
        funext c; simp [h1.symm, h2]
      rw [this, xorSum_indicator X ck hck]
  · have h1' : ¬ ri = r := fun e => h1 e.symm
    by_cases h2 : r = rk
    · rw [if_neg h1, if_pos h2]
      have : (fun c => decide (ri = r ∨ ci = c) && decide (r = rk ∨ c = ck))
          = fun c => decide (c = ci) := by
        funext c
        have e1 : (ri = r ∨ ci = c) = (c = ci) := by
          apply propext
          constructor
          · rintro (e | e)
            · exact absurd e h1'
            · exact e.symm
          · intro e; exact Or.inr e.symm
        have e2 : (r = rk ∨ c = ck) = True := by
          apply propext
          exact ⟨fun _ => trivial, fun _ => Or.inl h2⟩
        simp only [e1, e2, decide_True, Bool.and_true]
      rw [this, xorSum_indicator X ci hci]
    · rw [if_neg h1, if_neg h2]
      have : (fun c => decide (ri = r ∨ ci = c) && decide (r = rk ∨ c = ck))
          = fun c => decide (ci = ck) && decide (c = ci) := by
        funext c
        simp only [h1', h2, false_or]
        by_cases e1 : ci = c
        · subst e1
          by_cases e2 : ci = ck <;> simp [e2]
        · have : ¬ c = ci := fun e => e1 e.symm
          simp [e1, this]
      rw [this, xorSum_single]
      simp [hci]

/-- The square of the row-or-column incidence matrix is the identity over GF(2) when
both dimensions are even. -/
theorem incidence_sq {Y X : Nat} (hY : Y % 2 = 0) (hX : X % 2 = 0) {i k : Nat}
    (hi : i < Y * X) (hk : k < Y * X) :
    xorSum (Y * X) (fun j => decide (i / X = j / X ∨ i % X = j % X) &&
        decide (j / X = k / X ∨ j % X = k % X))
      = decide (i = k) := by
  have hXpos : 0 < X := by
    rcases Nat.eq_zero_or_pos X with e | e
    · rw [e] at hi; simp at hi
    · exact e
  have hri : i / X < Y := div_lt_of_lt_mul' hi
  have hrk : k / X < Y := div_lt_of_lt_mul' hk
  have hci : i % X < X := Nat.mod_lt _ hXpos
  have hck : k % X < X := Nat.mod_lt _ hXpos
  rw [← xorSum_mul Y X]
  have e1 : (xorSum Y fun r => xorSum X fun c =>
        decide (i / X = (r * X + c) / X ∨ i % X = (r * X + c) % X) &&
          decide ((r * X + c) / X = k / X ∨ (r * X + c) % X = k % X))
      = xorSum Y fun r =>
          if r = i / X then (if r = k / X then false else true)
          else (if r = k / X then true else decide (i % X = k % X)) := by
    apply xorSum_congr
    intro r _
    rw [← incidence_row_sum hX hci hck r]
    apply xorSum_congr
    intro c hc
    rw [idx_div r hc, idx_mod r hc]
  rw [e1]
  have hik : i = k ↔ (i / X = k / X ∧ i % X = k % X) := by
    constructor
    · intro e; rw [e]; exact ⟨rfl, rfl⟩
    · rintro ⟨a, b⟩
      rw [idx_decomp X i, idx_decomp X k, a, b]
  by_cases hr : i / X = k / X
  · have e2 : (fun r => if r = i / X then (if r = k / X then false else true)
          else (if r = k / X then true else decide (i % X = k % X)))
        = fun r => xor (decide (i % X = k % X)) (decide (i % X = k % X) && decide (r = i / X)) := by
      funext r
      by_cases h : r = i / X
      · rw [if_pos h, if_pos (h.trans hr)]
        simp [h]
      · rw [if_neg h, if_neg (fun e => h (e.trans hr.symm))]
        simp [h]
    rw [e2, xorSum_xor, xorSum_const, xorSum_single]
    have : (i = k) = (i % X = k % X) := by
      apply propext
      rw [hik]
      exact ⟨fun h => h.2, fun h => ⟨hr, h⟩⟩
    simp only [this]
    simp [hY, hri]
  · have e2 : (fun r => if r = i / X then (if r = k / X then false else true)
          else (if r = k / X then true else decide (i % X = k % X)))
        = fun r => xor (decide (i % X = k % X))
            (xor ((!decide (i % X = k % X)) && decide (r = i / X))
              ((!decide (i % X = k % X)) && decide (r = k / X))) := by
      funext r
      by_cases h : r = i / X
      · have h' : ¬ r = k / X := fun e => hr (h.symm.trans e)
        rw [if_pos h, if_neg h']
        cases decide (i % X = k % X) <;> simp [h, hr]
      · rw [if_neg h]
        by_cases h' : r = k / X
        · rw [if_pos h']
          have hr' : ¬ k / X = i / X := fun e => hr e.symm
          cases decide (i % X = k % X) <;> simp [h', hr']
        · rw [if_neg h']
          cases decide (i % X = k % X) <;> simp [h, h']
    rw [e2, xorSum_xor, xorSum_xor, xorSum_const, xorSum_single, xorSum_single]
    have : ¬ i = k := fun e => hr (by rw [e])
    simp only [this, decide_False]
    simp [hY, hri, hrk]

theorem incidence_involution {Y X : Nat} (hY : Y % 2 = 0) (hX : X % 2 = 0) (v : Nat → Bool)
    {i : Nat} (hi : i < Y * X) :
    xorSum (Y * X) (fun j => decide (i / X = j / X ∨ i % X = j % X) &&
        xorSum (Y * X) fun k => decide (j / X = k / X ∨ j % X = k % X) && v k)
      = v i := by
  have e1 : (fun j => decide (i / X = j / X ∨ i % X = j % X) &&
        xorSum (Y * X) fun k => decide (j / X = k / X ∨ j % X = k % X) && v k)
      = fun j => xorSum (Y * X) fun k =>
          (decide (i / X = j / X ∨ i % X = j % X) && decide (j / X = k / X ∨ j % X = k % X))
            && v k := by
    funext j
    rw [and_xorSum]
    congr 1
    funext k
    rw [Bool.and_assoc]
  rw [e1, xorSum_swap]
  have e2 : (xorSum (Y * X) fun k => xorSum (Y * X) fun j =>
        (decide (i / X = j / X ∨ i % X = j % X) && decide (j / X = k / X ∨ j % X = k % X))
          && v k)
      = xorSum (Y * X) fun k => v k && decide (k = i) := by
    apply xorSum_congr
    intro k hk
    rw [xorSum_and, incidence_sq hY hX hi hk, Bool.and_comm]
    congr 2
    apply propext
    exact ⟨fun e => e.symm, fun e => e.symm⟩
  rw [e2, xorSum_single]
  simp [hi]

theorem solves_buildMatrix_iff (Y X : Nat) (st : Grid) (hN : Y * X ≤ MAX_N) (x : Nat → Bool) :
    Solves (Y * X) (buildMatrix Y X st) x ↔
      ∀ i, i < Y * X →
        xorSum (Y * X) (fun j => decide (i / X = j / X ∨ i % X = j % X) && x j)
          = cell st (i / X) (i % X) := by
  have key : ∀ i, i < Y * X →
      residual (Y * X) (rowAt (buildMatrix Y X st) i) x
        = xor (xorSum (Y * X) (fun j => decide (i / X = j / X ∨ i % X = j % X) && x j))
            (cell st (i / X) (i % X)) := by
    intro i hi
    unfold residual
    rw [rhs_eq Y X st hi]
    congr 1
    apply xorSum_congr
    intro j hj
    have := coef_eq Y X st hN hi hj
    unfold coef at this
    rw [this]
  constructor
  · intro h i hi
    have := h i hi
    rw [key i hi] at this
    revert this
    cases xorSum (Y * X) (fun j => decide (i / X = j / X ∨ i % X = j % X) && x j) <;>
      cases cell st (i / X) (i % X) <;> simp
  · intro h i hi
    rw [key i hi, h i hi]
    simp

/-- For even dimensions the builder's system has exactly one solution, `A * state`, and
the elimination delivers it: every column gets its pivot and `press` is that solution. -/
theorem even_press_spec (Y X : Nat) (st : Grid) (hY : Y % 2 = 0) (hX : X % 2 = 0)
    (hN : Y * X ≤ MAX_N) :
    (gauss (Y * X) (buildMatrix Y X st)).2 = Y * X ∧
    Solves (Y * X) (buildMatrix Y X st) (pressAt (computePress Y X st)) ∧
    ∀ i, i < Y * X →
      pressAt (computePress Y X st) i
        = xorSum (Y * X) fun j => decide (i / X = j / X ∨ i % X = j % X) &&
            cell st (j / X) (j % X) := by
  have hlen : (buildMatrix Y X st).length = Y * X := (buildMatrix_rows Y X st).1
  have hsol0 : Solves (Y * X) (buildMatrix Y X st)
      (fun i => xorSum (Y * X) fun j => decide (i / X = j / X ∨ i % X = j % X) &&
        cell st (j / X) (j % X)) := by
    rw [solves_buildMatrix_iff Y X st hN]
    intro i hi
    exact incidence_involution hY hX (fun j => cell st (j / X) (j % X)) hi
  have huniq : ∀ x, Solves (Y * X) (buildMatrix Y X st) x → ∀ i, i < Y * X →
      x i = xorSum (Y * X) fun j => decide (i / X = j / X ∨ i % X = j % X) &&
        cell st (j / X) (j % X) := by
    intro x hx i hi
    rw [solves_buildMatrix_iff Y X st hN] at hx
    rw [← incidence_involution hY hX x hi]
    apply xorSum_congr
    intro j hj
    rw [hx j hj]
  have hfull := gaussRun_full_rank (Y * X) (buildMatrix Y X st) hlen _ hsol0 huniq (Y * X)
    (Nat.le_refl _)
  obtain ⟨c, hE, _⟩ := gaussRun_echelon (Y * X) (buildMatrix Y X st) hlen (Y * X)
  have hEN := hE (Y * X) (Nat.le_refl _)
  have hid : ∀ r, r < (gaussRun (Y * X) (buildMatrix Y X st) (Y * X)).2 → c r = r := by
    apply strictMono_below_eq_id
    · intro r hr
      have := (hEN.2.2.2.1 r hr).1
      rw [hfull]
      exact this
    · exact hEN.2.2.2.2.1
  obtain ⟨ha, hb⟩ := echelon_diagonal hEN hid
  have hc := hEN.2.2.2.2.2.2
  have hpress := press_solves_of_diagonal (Y * X) (gaussRun (Y * X) (buildMatrix Y X st) (Y * X)).1
    (gaussRun (Y * X) (buildMatrix Y X st) (Y * X)).2 ha hb hc
    ⟨_, (gaussRun_solves (Y * X) (buildMatrix Y X st) hlen (Y * X) _).mpr hsol0⟩
  have hpress' : Solves (Y * X) (buildMatrix Y X st) (pressAt (computePress Y X st)) :=
    (gaussRun_solves (Y * X) (buildMatrix Y X st) hlen (Y * X) _).mp hpress
  exact ⟨hfull, hpress', huniq _ hpress'⟩

/-- A press vector that solves the builder's system opens a well-formed box. -/
theorem applyPress_opens (Y X : Nat) (st : Grid) (press : List Bool) (hw : WellFormed Y X st)
    (hN : Y * X ≤ MAX_N) (hs : Solves (Y * X) (buildMatrix Y X st) (pressAt press)) :
    (∀ r c, r < Y → c < X → cell (applyPress Y X press ⟨st, Y, X⟩).box r c = false) ∧
    (applyPress Y X press ⟨st, Y, X⟩).isLocked = false := by
  obtain ⟨_, hcell⟩ := applyPress_cell Y X st press hw hN
  rw [solves_buildMatrix_iff Y X st hN] at hs
  have hall : ∀ r c, r < Y → c < X →
      cell (applyPress Y X press ⟨st, Y, X⟩).box r c = false := by
    intro r c hr hc
    have hi := idx_lt hr hc
    rw [hcell r c hr hc]
    have : mulVec Y X st press (r * X + c) = cell st r c := by
      have h := hs (r * X + c) hi
      rw [idx_div r hc, idx_mod r hc] at h
      rw [← h]
      unfold mulVec
      apply xorSum_congr
      intro j hj
      rw [coef_eq Y X st hN hi hj, idx_div r hc, idx_mod r hc]
    rw [this]
    simp
  refine ⟨hall, ?_⟩
  cases hl : (applyPress Y X press ⟨st, Y, X⟩).isLocked
  · rfl
  · obtain ⟨y, x, hy, hx, h⟩ := (isLocked_iff _).mp hl
    obtain ⟨s1, s2⟩ := applyPress_sizes Y X press ⟨st, Y, X⟩
    rw [s1] at hy
    rw [s2] at hx
    rw [hall y x hy hx] at h
    exact absurd h (by decide)

/-- C15: when `ySize` and `xSize` are both even (at most 10000 cells), the builder's
coefficient matrix `A` is its own inverse over GF(2), `A * A = I`; the elimination finds
a pivot in every column, and for every well-formed initial grid whatsoever `openBox`
returns `false` and leaves the grid all-false. -/
theorem even_dims_always_open (ySize xSize : Nat) (st : Grid)
    (hy : ySize % 2 = 0) (hx : xSize % 2 = 0) (hN : ySize * xSize ≤ 10000)
    (hw : WellFormed ySize xSize st) :
    (∀ i k, i < ySize * xSize → k < ySize * xSize →
      xorSum (ySize * xSize) (fun j => coef ySize xSize st i j && coef ySize xSize st j k)
        = decide (i = k)) ∧
    (gauss (ySize * xSize) (buildMatrix ySize xSize st)).2 = ySize * xSize ∧
    openBox ySize xSize st = false ∧
    ∀ r c, r < ySize → c < xSize →
      cell (openBoxFinal ySize xSize st).getState r c = false := by
  obtain ⟨hfull, hsol, _⟩ := even_press_spec ySize xSize st hy hx hN
  obtain ⟨hall, hlock⟩ :=
    applyPress_opens ySize xSize st (computePress ySize xSize st) hw hN hsol
  refine ⟨?_, hfull, hlock, hall⟩
  intro i k hi hk
  rw [← incidence_sq hy hx hi hk]
  apply xorSum_congr
  intro j hj
  rw [coef_eq ySize xSize st hN hi hj, coef_eq ySize xSize st hN hj hk]

theorem even_dims_always_open_witness :
    (2 % 2 = 0 ∧ 4 % 2 = 0 ∧ 2 * 4 ≤ 10000 ∧
      WellFormed 2 4 [[false, true, true, false], [true, true, false, true]]) ∧
    ((∀ i k, i < 2 * 4 → k < 2 * 4 →
      xorSum (2 * 4) (fun j =>
          coef 2 4 [[false, true, true, false], [true, true, false, true]] i j &&
            coef 2 4 [[false, true, true, false], [true, true, false, true]] j k)
        = decide (i = k)) ∧
    (gauss (2 * 4) (buildMatrix 2 4 [[false, true, true, false], [true, true, false, true]])).2
      = 2 * 4 ∧
    openBox 2 4 [[false, true, true, false], [true, true, false, true]] = false ∧
    ∀ r c, r < 2 → c < 4 →
      cell (openBoxFinal 2 4 [[false, true, true, false], [true, true, false, true]]).getState
        r c = false) :=
  ⟨⟨by decide, by decide, by decide, ⟨rfl, by decide⟩⟩,
    even_dims_always_open 2 4 [[false, true, true, false], [true, true, false, true]]
      (by decide) (by decide) (by decide) ⟨rfl, by decide⟩⟩

/-! ## Parity of a count -/

theorem xorSum_decide_odd (n : Nat) (g : Nat → Nat) :
    xorSum n (fun a => decide (g a % 2 = 1))
      = decide ((∑ a in Finset.range n, g a) % 2 = 1) := by
  induction n with
  | zero => rfl
  | succ n ih =>
    rw [xorSum_succ, ih, Finset.sum_range_succ]
    by_cases h1 : (∑ a in Finset.range n, g a) % 2 = 1 <;> by_cases h2 : g n % 2 = 1
    · have : ¬ ((∑ a in Finset.range n, g a) + g n) % 2 = 1 := by omega
      simp [h1, h2, this]
    · have : ((∑ a in Finset.range n, g a) + g n) % 2 = 1 := by omega
      simp [h1, h2, this]
    · have : ((∑ a in Finset.range n, g a) + g n) % 2 = 1 := by omega
      simp [h1, h2, this]
    · have : ¬ ((∑ a in Finset.range n, g a) + g n) % 2 = 1 := by omega
      simp [h1, h2, this]

theorem xorSum_eq_odd (n : Nat) (f : Nat → Bool) :
    xorSum n f = decide ((∑ a in Finset.range n, if f a = true then 1 else 0) % 2 = 1) := by
  rw [← xorSum_decide_odd]
  apply xorSum_congr
  intro a _
  cases f a <;> simp

theorem xorSum2_eq_card_odd (Y X : Nat) (F : Nat → Nat → Bool) :
    xorSum Y (fun a => xorSum X fun b => F a b)
      = decide (((Finset.range Y ×ˢ Finset.range X).filter
          (fun p : Nat × Nat => F p.1 p.2 = true)).card % 2 = 1) := by
  rw [Finset.card_filter, Finset.sum_product, ← xorSum_decide_odd]
  apply xorSum_congr
  intro a _
  exact xorSum_eq_odd X (fun b => F a b)

/-- C16: when `ySize` and `xSize` are both even (at most 10000 cells), the press vector
`openBox` computes by Gauss elimination is the closed form `A * state`: the cell `(r, c)`
is pressed exactly when the number of `true` cells of the initial grid lying in row `r`
or in column `c` (the cell `(r, c)` counted once) is odd. -/
theorem even_press_closed_form (ySize xSize : Nat) (st : Grid)
    (hy : ySize % 2 = 0) (hx : xSize % 2 = 0) (hN : ySize * xSize ≤ 10000)
    (r c : Nat) (hr : r < ySize) (hc : c < xSize) :
    pressAt (computePress ySize xSize st) (r * xSize + c)
      = xorSum (ySize * xSize) (fun j =>
          coef ySize xSize st (r * xSize + c) j && cell st (j / xSize) (j % xSize)) ∧
    (pressAt (computePress ySize xSize st) (r * xSize + c) = true ↔
      ((Finset.range ySize ×ˢ Finset.range xSize).filter
        (fun p : Nat × Nat => (p.1 = r ∨ p.2 = c) ∧ cell st p.1 p.2 = true)).card % 2 = 1) := by
  obtain ⟨_, _, hform⟩ := even_press_spec ySize xSize st hy hx hN
  have hi : r * xSize + c < ySize * xSize := idx_lt hr hc
  have h1 := hform (r * xSize + c) hi
  constructor
  · rw [h1]
    apply xorSum_congr
    intro j hj
    rw [coef_eq ySize xSize st hN hi hj]
  · rw [h1, ← xorSum_mul ySize xSize]
    have e : (xorSum ySize fun r' => xorSum xSize fun c' =>
          decide ((r * xSize + c) / xSize = (r' * xSize + c') / xSize ∨
            (r * xSize + c) % xSize = (r' * xSize + c') % xSize) &&
          cell st ((r' * xSize + c') / xSize) ((r' * xSize + c') % xSize))
        = xorSum ySize fun r' => xorSum xSize fun c' =>
            (decide (r' = r ∨ c' = c) && cell st r' c') := by
      apply xorSum_congr
      intro r' _
      apply xorSum_congr
      intro c' hc'
      rw [idx_div r hc, idx_mod r hc, idx_div r' hc', idx_mod r' hc']
      congr 2
      apply propext
      constructor
      · rintro (h | h)
        · exact Or.inl h.symm
        · exact Or.inr h.symm
      · rintro (h | h)
        · exact Or.inl h.symm
        · exact Or.inr h.symm
    rw [e, xorSum2_eq_card_odd]
    simp only [Bool.and_eq_true, decide_eq_true_eq]

theorem even_press_closed_form_witness :
    (2 % 2 = 0 ∧ 4 % 2 = 0 ∧ 2 * 4 ≤ 10000 ∧ 1 < 2 ∧ 2 < 4) ∧
    (pressAt (computePress 2 4 [[false, true, true, false], [true, true, false, true]])
        (1 * 4 + 2)
      = xorSum (2 * 4) (fun j =>
          coef 2 4 [[false, true, true, false], [true, true, false, true]] (1 * 4 + 2) j &&
            cell [[false, true, true, false], [true, true, false, true]] (j / 4) (j % 4)) ∧
    (pressAt (computePress 2 4 [[false, true, true, false], [true, true, false, true]])
        (1 * 4 + 2) = true ↔
      ((Finset.range 2 ×ˢ Finset.range 4).filter
        (fun p : Nat × Nat => (p.1 = 1 ∨ p.2 = 2) ∧
          cell [[false, true, true, false], [true, true, false, true]] p.1 p.2 = true)).card
        % 2 = 1)) :=
  ⟨⟨by decide, by decide, by decide, by decide, by decide⟩,
    even_press_closed_form 2 4 [[false, true, true, false], [true, true, false, true]]
      (by decide) (by decide) (by decide) 1 2 (by decide) (by decide)⟩

/-! ## No access of `openBox` is out of range -/

theorem foldlM_eq_some {α β : Type} (P : α → Prop) (f : α → β → Option α) (g : α → β → α)
    (l : List β) (h : ∀ s a, a ∈ l → P s → f s a = some (g s a) ∧ P (g s a)) :
    ∀ s, P s → l.foldlM f s = some (l.foldl g s) ∧ P (l.foldl g s) := by
  induction l with
  | nil => intro s hs; exact ⟨rfl, hs⟩
  | cons a l ih =>
    intro s hs
    obtain ⟨e, hp⟩ := h s a (List.mem_cons_self _ _) hs
    have ih' := ih (fun s b hb hs => h s b (List.mem_cons_of_mem _ hb) hs) (g s a) hp
    rw [List.foldlM_cons, e]
    exact ih'

theorem anyM_eq_some {β : Type} (f : β → Option Bool) (g : β → Bool) (l : List β)
    (h : ∀ a, a ∈ l → f a = some (g a)) : l.anyM f = some (l.any g) := by
  induction l with
  | nil => rfl
  | cons a l ih =>
    have ha := h a (List.mem_cons_self _ _)
    have ih' := ih (fun b hb => h b (List.mem_cons_of_mem _ hb))
    simp only [List.anyM, ha, List.any_cons]
    cases g a
    · simpa using ih'
    · rfl

theorem cellChecked_eq {Y X : Nat} {g : Grid} (h : WellFormed Y X g) {y x : Nat}
    (hy : y < Y) (hx : x < X) : cellChecked g y x = some (cell g y x) := by
  obtain ⟨hl, hr⟩ := h
  have h1 : y < g.length := by omega
  have h2 := hr y hy
  unfold cellChecked cell
  rw [List.getD_eq_getElem g [] h1] at h2 ⊢
  rw [List.getElem?_eq_getElem h1]
  simp only [Option.some_bind]
  have h3 : x < (g[y]).length := by omega
  rw [List.getElem?_eq_getElem h3, List.getD_eq_getElem _ false h3]

theorem flipCellChecked_eq {Y X : Nat} {g : Grid} (h : WellFormed Y X g) {y x : Nat}
    (hy : y < Y) (hx : x < X) : flipCellChecked g y x = some (flipCell g y x) := by
  unfold flipCellChecked flipCell
  rw [cellChecked_eq h hy hx]
  rfl

theorem toggleChecked_eq (b : SecureBox) (hw : WellFormed b.ySize b.xSize b.box) {y x : Nat}
    (hy : y < b.ySize) (hx : x < b.xSize) : b.toggleChecked y x = some (b.toggle y x) := by
  unfold SecureBox.toggleChecked SecureBox.toggle
  have h0 := wellFormed_flipCell hw y x
  obtain ⟨e1, h1⟩ := foldlM_eq_some (WellFormed b.ySize b.xSize)
    (fun g i => flipCellChecked g y i) (fun g i => flipCell g y i) (List.range b.xSize)
    (fun s a ha hs => ⟨flipCellChecked_eq hs hy (List.mem_range.mp ha), wellFormed_flipCell hs y a⟩)
    (flipCell b.box y x) h0
  obtain ⟨e2, _⟩ := foldlM_eq_some (WellFormed b.ySize b.xSize)
    (fun g i => flipCellChecked g i x) (fun g i => flipCell g i x) (List.range b.ySize)
    (fun s a ha hs => ⟨flipCellChecked_eq hs (List.mem_range.mp ha) hx, wellFormed_flipCell hs a x⟩)
    _ h1
  rw [flipCellChecked_eq hw hy hx]
  simp only [Option.bind_eq_bind, Option.some_bind, e1, e2]
  rfl

theorem isLockedChecked_eq (b : SecureBox) (hw : WellFormed b.ySize b.xSize b.box) :
    b.isLockedChecked = some b.isLocked := by
  unfold SecureBox.isLockedChecked SecureBox.isLocked
  apply anyM_eq_some
  intro x hx
  apply anyM_eq_some
  intro y hy
  exact cellChecked_eq hw (List.mem_range.mp hy) (List.mem_range.mp hx)

theorem length_setBit (m : Matrix) (i k : Nat) (v : Bool) : (setBit m i k v).length = m.length := by
  simp [setBit]

theorem length_flipBit (m : Matrix) (i k : Nat) : (flipBit m i k).length = m.length := by
  simp [flipBit, setBit]

theorem flipCoef_eq {N : Nat} {m : Matrix} {i k : Nat} (hi : i < m.length) (hk : k < N)
    (hM : k < MAX_N) : flipCoef N m i k = some (flipBit m i k) := by
  unfold flipCoef readCoef writeCoef flipBit
  simp only [Option.bind_eq_bind]
  rw [if_pos ⟨hi, hk, hM⟩]
  simp only [Option.some_bind]
  rw [if_pos ⟨hi, hk, hM⟩]

theorem buildCellChecked_eq (Y X : Nat) (st : Grid) (hw : WellFormed Y X st)
    (hN : Y * X ≤ MAX_N) {row col : Nat} (hr : row < Y) (hc : col < X) (m : Matrix)
    (hlen : m.length = Y * X) :
    buildCellChecked Y X st row col m = some (buildCell Y X st row col m) ∧
    (buildCell Y X st row col m).length = Y * X := by
  have hidx : row * X + col < Y * X := idx_lt hr hc
  have h1 : writeCoef (Y * X) m (row * X + col) (row * X + col) true
      = some (setBit m (row * X + col) (row * X + col) true) := by
    unfold writeCoef
    rw [if_pos ⟨by omega, hidx, by omega⟩]
  have l1 : (setBit m (row * X + col) (row * X + col) true).length = Y * X := by
    rw [length_setBit]; exact hlen
  obtain ⟨e2, l2⟩ := foldlM_eq_some (fun a : Matrix => a.length = Y * X)
    (fun a i => flipCoef (Y * X) a (row * X + col) (row * X + i))
    (fun a i => flipBit a (row * X + col) (row * X + i)) (List.range X)
    (fun s a ha hs => by
      have ha' : a < X := List.mem_range.mp ha
      have hlt : row * X + a < Y * X := idx_lt hr ha'
      have hs' : s.length = Y * X := hs
      exact ⟨flipCoef_eq (by omega) hlt (by omega), (length_flipBit _ _ _).trans hs'⟩)
    _ l1
  obtain ⟨e3, l3⟩ := foldlM_eq_some (fun a : Matrix => a.length = Y * X)
    (fun a i => flipCoef (Y * X) a (row * X + col) (i * X + col))
    (fun a i => flipBit a (row * X + col) (i * X + col)) (List.range Y)
    (fun s a ha hs => by
      have ha' : a < Y := List.mem_range.mp ha
      have hlt : a * X + col < Y * X := idx_lt ha' hc
      have hs' : s.length = Y * X := hs
      exact ⟨flipCoef_eq (by omega) hlt (by omega), (length_flipBit _ _ _).trans hs'⟩)
    _ l2
  constructor
  · unfold buildCellChecked buildCell
    simp only [Option.bind_eq_bind, h1, Option.some_bind, e2, e3, cellChecked_eq hw hr hc]
    unfold writeRhs
    rw [if_pos ⟨by rw [l3]; exact hidx, Nat.lt_succ_self _⟩]
  · unfold buildCell
    simp only []
    rw [length_setBit]
    exact l3

theorem buildMatrixChecked_eq (Y X : Nat) (st : Grid) (hw : WellFormed Y X st)
    (hN : Y * X ≤ MAX_N) :
    buildMatrixChecked Y X st = some (buildMatrix Y X st) := by
  unfold buildMatrixChecked buildMatrix
  refine (foldlM_eq_some (fun a : Matrix => a.length = Y * X) _ _ (List.range Y) ?_ _
    (by simp)).1
  intro s row hrow hs
  exact foldlM_eq_some (fun a : Matrix => a.length = Y * X) _ _ (List.range X)
    (fun a col hcol ha =>
      buildCellChecked_eq Y X st hw hN (List.mem_range.mp hrow) (List.mem_range.mp hcol) a ha)
    s hs

theorem readCoef_eq {N : Nat} {m : Matrix} {i k : Nat} (hi : i < m.length) (hk : k < N)
    (hM : k < MAX_N) : readCoef N m i k = some (Bitset.test (rowAt m i) k) := by
  unfold readCoef
  rw [if_pos ⟨hi, hk, hM⟩]

theorem findSelLoop_eq {N : Nat} {m : Matrix} {col : Nat} (hc : col < N) (hM : col < MAX_N)
    (l : List Nat) (hl : ∀ i, i ∈ l → i < m.length) :
    findSelLoop N m col l = some (l.find? fun i => Bitset.test (rowAt m i) col) := by
  induction l with
  | nil => rfl
  | cons a l ih =>
    have ha := hl a (List.mem_cons_self _ _)
    have ih' := ih (fun i hi => hl i (List.mem_cons_of_mem _ hi))
    unfold findSelLoop
    simp only [Option.bind_eq_bind, readCoef_eq ha hc hM, Option.some_bind, List.find?_cons]
    cases h : Bitset.test (rowAt m a) col
    · simpa using ih'
    · rfl

theorem findSelChecked_eq {N : Nat} {m : Matrix} (hlen : m.length = N) (row : Nat) {col : Nat}
    (hc : col < N) (hM : col < MAX_N) :
    findSelChecked m N row col = some (findSel m N row col) := by
  unfold findSelChecked findSel
  apply findSelLoop_eq hc hM
  intro i hi
  rw [List.mem_range'_1] at hi
  omega

theorem eliminateChecked_eq {N : Nat} {m : Matrix} (hlen : m.length = N) {row col : Nat}
    (hr : row < N) (hc : col < N) (hM : col < MAX_N) :
    eliminateChecked m N row col = some (eliminate m N row col) := by
  unfold eliminateChecked eliminate
  refine (foldlM_eq_some (fun a : Matrix => a.length = N) _ _ (List.range N) ?_ m hlen).1
  intro s i hi hs
  have hs' : s.length = N := hs
  have hiN : i < N := List.mem_range.mp hi
  by_cases h1 : i = row
  · simp only [h1, ne_eq, not_true_eq_false, if_false, false_and]
    exact ⟨rfl, hs'⟩
  · simp only [ne_eq, h1, not_false_eq_true, if_true, true_and, Option.bind_eq_bind,
      readCoef_eq (by omega : i < s.length) hc hM, Option.some_bind]
    cases h2 : Bitset.test (rowAt s i) col
    · simp only [Bool.false_eq_true, if_false]
      exact ⟨rfl, hs'⟩
    · simp only [if_true]
      unfold xorRowChecked
      rw [if_pos ⟨by omega, by omega⟩]
      exact ⟨rfl, by rw [List.length_set]; exact hs'⟩

theorem gaussStepChecked_eq {N : Nat} (s : Matrix × Nat) (hlen : s.1.length = N) {col : Nat}
    (hc : col < N) (hM : col < MAX_N) :
    gaussStepChecked N s col = some (gaussStep N s col) := by
  unfold gaussStepChecked gaussStep
  simp only [Option.bind_eq_bind, findSelChecked_eq hlen s.2 hc hM, Option.some_bind]
  cases h : findSel s.1 N s.2 col with
  | none => rfl
  | some sel =>
    obtain ⟨h1, h2, _⟩ := findSel_some h
    have hsw : swapRowsChecked s.1 s.2 sel = some (swapRows s.1 s.2 sel) := by
      unfold swapRowsChecked
      rw [if_pos ⟨by omega, by omega⟩]
    simp only [hsw, Option.bind_eq_bind, Option.some_bind,
      eliminateChecked_eq (m := swapRows s.1 s.2 sel) (by rw [length_swapRows]; exact hlen)
        (by omega : s.2 < N) hc hM]
    rfl

theorem gaussChecked_eq {N : Nat} (m : Matrix) (hlen : m.length = N) (hN : N ≤ MAX_N) :
    gaussChecked N m = some (gauss N m) := by
  unfold gaussChecked gauss
  refine (foldlM_eq_some (fun s : Matrix × Nat => s.1.length = N) _ _ (List.range N) ?_
    (m, 0) hlen).1
  intro s col hcol hs
  have hc : col < N := List.mem_range.mp hcol
  exact ⟨gaussStepChecked_eq s hs hc (by omega), gaussStep_length N s col hs⟩

theorem extractPressChecked_eq {N : Nat} (m : Matrix) (hlen : m.length = N) :
    extractPressChecked N m = some (extractPress N m) := by
  have key : ∀ n, n ≤ N →
      (List.range n).foldlM
        (fun press i => do
          let v ← readRhs m i
          writePress press i v)
        (List.replicate N false)
      = some ((List.range N).map fun i =>
          if i < n then Bitset.test (rowAt m i) MAX_N else false) := by
    intro n
    induction n with
    | zero =>
      intro _
      simp only [List.range_zero, List.foldlM_nil, Nat.not_lt_zero, if_false]
      congr 1
      apply List.ext_getElem (by simp)
      intro i h1 h2
      simp
    | succ n ih =>
      intro hn
      rw [List.range_succ, List.foldlM_append, ih (by omega)]
      simp only [Option.bind_eq_bind, Option.some_bind, List.foldlM_cons, List.foldlM_nil]
      unfold readRhs writePress
      rw [if_pos ⟨by omega, Nat.lt_succ_self _⟩]
      simp only [Option.some_bind, List.length_map, List.length_range]
      rw [if_pos (by omega)]
      simp only [Option.pure_def, Option.bind_eq_bind, Option.some_bind]
      congr 1
      apply List.ext_getElem (by simp)
      intro i h1 h2
      rw [List.getElem_set]
      simp only [List.getElem_map, List.getElem_range]
      by_cases e : n = i
      · subst e
        simp
      · rw [if_neg e]
        have : (i < n + 1) = (i < n) := by apply propext; omega
        simp only [this]
  unfold extractPressChecked extractPress
  rw [key N (Nat.le_refl N)]
  congr 1
  apply List.map_congr_left
  intro i hi
  rw [if_pos (List.mem_range.mp hi)]

theorem length_extractPress (N : Nat) (m : Matrix) : (extractPress N m).length = N := by
  simp [extractPress]

theorem readPress_eq {press : List Bool} {i : Nat} (h : i < press.length) :
    readPress press i = some (pressAt press i) := by
  unfold readPress pressAt
  rw [List.getElem?_eq_getElem h, List.getD_eq_getElem _ false h]

theorem applyPressChecked_eq (Y X : Nat) (press : List Bool) (hp : press.length = Y * X)
    (b : SecureBox) (hY : b.ySize = Y) (hX : b.xSize = X) (hw : WellFormed Y X b.box) :
    applyPressChecked Y X press b = some (applyPress Y X press b) ∧
    WellFormed Y X (applyPress Y X press b).box := by
  unfold applyPressChecked applyPress
  have h := foldlM_eq_some
    (fun s : SecureBox => s.ySize = Y ∧ s.xSize = X ∧ WellFormed Y X s.box)
    (fun s r => (List.range X).foldlM
      (fun t c => do
        let p ← readPress press (r * X + c)
        if p = true then t.toggleChecked r c else pure t) s)
    (fun s r => (List.range X).foldl
      (fun t c => if pressAt press (r * X + c) = true then t.toggle r c else t) s)
    (List.range Y)
    (fun s r hr hs => by
      have hrY : r < Y := List.mem_range.mp hr
      refine foldlM_eq_some
        (fun s : SecureBox => s.ySize = Y ∧ s.xSize = X ∧ WellFormed Y X s.box) _ _
        (List.range X) ?_ s hs
      intro t c hc ht
      have hcX : c < X := List.mem_range.mp hc
      obtain ⟨t1, t2, t3⟩ := ht
      have hidx : r * X + c < press.length := by rw [hp]; exact idx_lt hrY hcX
      simp only [Option.bind_eq_bind, readPress_eq hidx, Option.some_bind]
      subst t1; subst t2
      by_cases hpr : pressAt press (r * t.xSize + c) = true
      · rw [if_pos hpr, if_pos hpr]
        obtain ⟨s1, s2, s3, _⟩ := toggle_spec t t3 hrY hcX
        exact ⟨toggleChecked_eq t t3 hrY hcX, s1, s2, s3⟩
      · rw [if_neg hpr, if_neg hpr]
        exact ⟨rfl, rfl, rfl, t3⟩)
    b ⟨hY, hX, hw⟩
  exact ⟨h.1, h.2.2.2⟩

/-- C18: under the precondition `1 ≤ ySize`, `1 ≤ xSize`, `ySize * xSize ≤ 10000`, on the
`ySize × xSize` grid of the constructor, `openBox` with every access guarded never
leaves a range and returns what `openBox` returns: every row index of `matrix` exists
(the matrix has `N` rows throughout), every coefficient position is below `N ≤ 10000`
and so apart from the right-hand-side position `10000 < 10001`, every index of `press`
is below `N`, and every `state[row][col]`, `toggle(r, c)` and `isLocked` access has
`row < ySize`, `col < xSize`. -/
theorem openBox_accesses_in_range (ySize xSize : Nat) (st : Grid)
    (_hy : 1 ≤ ySize) (_hx : 1 ≤ xSize) (hN : ySize * xSize ≤ 10000)
    (hw : WellFormed ySize xSize st) :
    buildMatrixChecked ySize xSize st = some (buildMatrix ySize xSize st) ∧
    (buildMatrix ySize xSize st).length = ySize * xSize ∧
    gaussChecked (ySize * xSize) (buildMatrix ySize xSize st)
      = some (gauss (ySize * xSize) (buildMatrix ySize xSize st)) ∧
    (gauss (ySize * xSize) (buildMatrix ySize xSize st)).1.length = ySize * xSize ∧
    extractPressChecked (ySize * xSize) (gauss (ySize * xSize) (buildMatrix ySize xSize st)).1
      = some (computePress ySize xSize st) ∧
    (computePress ySize xSize st).length = ySize * xSize ∧
    applyPressChecked ySize xSize (computePress ySize xSize st) ⟨st, ySize, xSize⟩
      = some (openBoxFinal ySize xSize st) ∧
    openBoxChecked ySize xSize st = some (openBox ySize xSize st) := by
  have hlen : (buildMatrix ySize xSize st).length = ySize * xSize :=
    (buildMatrix_rows ySize xSize st).1
  have e1 := buildMatrixChecked_eq ySize xSize st hw hN
  have e2 := gaussChecked_eq (buildMatrix ySize xSize st) hlen hN
  have hlen2 : (gauss (ySize * xSize) (buildMatrix ySize xSize st)).1.length = ySize * xSize :=
    gaussRun_length (ySize * xSize) (buildMatrix ySize xSize st) hlen (ySize * xSize)
  have e3 : extractPressChecked (ySize * xSize)
      (gauss (ySize * xSize) (buildMatrix ySize xSize st)).1
      = some (computePress ySize xSize st) := extractPressChecked_eq _ hlen2
  have hpl : (computePress ySize xSize st).length = ySize * xSize := length_extractPress _ _
  obtain ⟨e4, hwf⟩ := applyPressChecked_eq ySize xSize (computePress ySize xSize st) hpl
    ⟨st, ySize, xSize⟩ rfl rfl hw
  have e4' : applyPressChecked ySize xSize (computePress ySize xSize st) ⟨st, ySize, xSize⟩
      = some (openBoxFinal ySize xSize st) := e4
  refine ⟨e1, hlen, e2, hlen2, e3, hpl, e4', ?_⟩
  have hs := applyPress_sizes ySize xSize (computePress ySize xSize st) ⟨st, ySize, xSize⟩
  have e5 : (openBoxFinal ySize xSize st).isLockedChecked
      = some (openBoxFinal ySize xSize st).isLocked := by
    apply isLockedChecked_eq
    have h1 : (openBoxFinal ySize xSize st).ySize = ySize := hs.1
    have h2 : (openBoxFinal ySize xSize st).xSize = xSize := hs.2
    rw [h1, h2]
    exact hwf
  unfold openBoxChecked
  simp only [SecureBox.getState, Option.bind_eq_bind, e1, Option.some_bind, e2, e3, e4', e5]
  rfl

theorem openBox_accesses_in_range_witness :
    (1 ≤ 2 ∧ 1 ≤ 3 ∧ 2 * 3 ≤ 10000 ∧
      WellFormed 2 3 [[true, false, true], [false, false, true]]) ∧
    (buildMatrixChecked 2 3 [[true, false, true], [false, false, true]]
      = some (buildMatrix 2 3 [[true, false, true], [false, false, true]]) ∧
    (buildMatrix 2 3 [[true, false, true], [false, false, true]]).length = 2 * 3 ∧
    gaussChecked (2 * 3) (buildMatrix 2 3 [[true, false, true], [false, false, true]])
      = some (gauss (2 * 3) (buildMatrix 2 3 [[true, false, true], [false, false, true]])) ∧
    (gauss (2 * 3) (buildMatrix 2 3 [[true, false, true], [false, false, true]])).1.length
      = 2 * 3 ∧
    extractPressChecked (2 * 3)
        (gauss (2 * 3) (buildMatrix 2 3 [[true, false, true], [false, false, true]])).1
      = some (computePress 2 3 [[true, false, true], [false, false, true]]) ∧
    (computePress 2 3 [[true, false, true], [false, false, true]]).length = 2 * 3 ∧
    applyPressChecked 2 3 (computePress 2 3 [[true, false, true], [false, false, true]])
        ⟨[[true, false, true], [false, false, true]], 2, 3⟩
      = some (openBoxFinal 2 3 [[true, false, true], [false, false, true]]) ∧
    openBoxChecked 2 3 [[true, false, true], [false, false, true]]
      = some (openBox 2 3 [[true, false, true], [false, false, true]])) :=
  ⟨⟨by decide, by decide, by decide, ⟨rfl, by decide⟩⟩,
    openBox_accesses_in_range 2 3 [[true, false, true], [false, false, true]]
      (by decide) (by decide) (by decide) ⟨rfl, by decide⟩⟩

end SecureBoxModel
